import Mathlib

/-!
# Verification of the integra-web numerical core

Shallow embedding of the numerical core of the `integra-web` repository:
the four integration methods (`euler`, `rk4`, `rkf45`, `adamsBashforth`),
the expression compiler (`convertPowers` / `parseEquation`) and the
nullcline extractor (`calculateNullclines`).

Modelling conventions:

* A JavaScript number is modelled by `JNum`: either an exact rational
  (`JNum.val q`, idealizing a finite double) or the non-finite marker
  `JNum.nan`, which covers IEEE `NaN` and the infinities.  All the
  arithmetic operations used by the code treat `nan` as absorbing, and
  every comparison involving `nan` is `false`, which matches JavaScript
  semantics for `NaN` (in the reachable states of these algorithms an
  infinity can only enter through a derivative evaluation, after which
  the code immediately routes it through `isFinite` checks or `NaN`
  producing expressions, so conflating the infinities with `NaN` does
  not change any observable modelled here).
* Derivative functions `f(t, y, params)` are modelled as total Lean
  functions `JNum → List JNum → JNum` with the parameter record already
  applied (the solvers pass the same `params` object to every call, so
  this partial application is observation-equivalent).
* `while` loops are modelled by structural recursion on an explicit
  iteration budget (`fuel`).  For `euler`, `rk4` and `adamsBashforth`
  every iteration increments `steps`, so a budget equal to `maxSteps`
  makes the budget branch unreachable and the model exact.  For `rkf45`
  rejected attempts do not increment `steps` and the source loop has no
  intrinsic bound, so the budget is a genuine parameter; all theorems
  below hold for every budget.
* `Math.pow(x, 0.2)` (the step-size controller's fifth root, an
  irrational real in general) is abstracted by a function parameter
  `pw : ℚ → ℚ` applied to nonnegative arguments; negative arguments
  produce `NaN` exactly as `Math.pow` does.
-/

namespace Integra

/-- A JavaScript number: an exact rational (finite double, idealized) or
the non-finite marker (`NaN` / `±Infinity`). -/
inductive JNum where
  | nan : JNum
  | val : ℚ → JNum
deriving DecidableEq, Repr

/-- Shorthand embedding of a rational as a finite JS number. -/
def Jv : ℚ → JNum := JNum.val

instance : Add JNum :=
  ⟨fun a b => match a, b with
    | JNum.val x, JNum.val y => JNum.val (x + y)
    | _, _ => JNum.nan⟩

instance : Sub JNum :=
  ⟨fun a b => match a, b with
    | JNum.val x, JNum.val y => JNum.val (x - y)
    | _, _ => JNum.nan⟩

instance : Mul JNum :=
  ⟨fun a b => match a, b with
    | JNum.val x, JNum.val y => JNum.val (x * y)
    | _, _ => JNum.nan⟩

/-- JS division: division by zero yields a non-finite value
(`Infinity` or `NaN`), modelled by `nan`. -/
instance : Div JNum :=
  ⟨fun a b => match a, b with
    | JNum.val x, JNum.val y => if y = 0 then JNum.nan else JNum.val (x / y)
    | _, _ => JNum.nan⟩

/-- JS `<`: every comparison with a `NaN` operand is `false`. -/
def jlt : JNum → JNum → Bool
  | JNum.val x, JNum.val y => decide (x < y)
  | _, _ => false

/-- JS `<=`: every comparison with a `NaN` operand is `false`. -/
def jle : JNum → JNum → Bool
  | JNum.val x, JNum.val y => decide (x ≤ y)
  | _, _ => false

/-- JS `===` on numbers: `NaN === NaN` is `false`. -/
def jeq : JNum → JNum → Bool
  | JNum.val x, JNum.val y => decide (x = y)
  | _, _ => false

/-- `Math.abs`. -/
def jabs : JNum → JNum
  | JNum.val x => JNum.val |x|
  | JNum.nan => JNum.nan

/-- `Math.max` (binary): `NaN` in, `NaN` out. -/
def jmax : JNum → JNum → JNum
  | JNum.val x, JNum.val y => JNum.val (max x y)
  | _, _ => JNum.nan

/-- `Math.min` (binary): `NaN` in, `NaN` out. -/
def jmin : JNum → JNum → JNum
  | JNum.val x, JNum.val y => JNum.val (min x y)
  | _, _ => JNum.nan

/-- JS `isFinite`. -/
def jIsFinite : JNum → Bool
  | JNum.val _ => true
  | JNum.nan => false

/-- Every component of a state vector is finite. -/
def allFinite (v : List JNum) : Bool := v.all jIsFinite

@[simp] theorem val_add (a b : ℚ) : JNum.val a + JNum.val b = JNum.val (a + b) := rfl
@[simp] theorem nan_add (b : JNum) : JNum.nan + b = JNum.nan := rfl
@[simp] theorem add_nan (a : JNum) : a + JNum.nan = JNum.nan := by cases a <;> rfl
@[simp] theorem val_sub (a b : ℚ) : JNum.val a - JNum.val b = JNum.val (a - b) := rfl
@[simp] theorem nan_sub (b : JNum) : JNum.nan - b = JNum.nan := rfl
@[simp] theorem sub_nan (a : JNum) : a - JNum.nan = JNum.nan := by cases a <;> rfl
@[simp] theorem val_mul (a b : ℚ) : JNum.val a * JNum.val b = JNum.val (a * b) := rfl
@[simp] theorem nan_mul (b : JNum) : JNum.nan * b = JNum.nan := rfl
@[simp] theorem mul_nan (a : JNum) : a * JNum.nan = JNum.nan := by cases a <;> rfl
@[simp] theorem nan_div (b : JNum) : JNum.nan / b = JNum.nan := rfl
@[simp] theorem div_nan (a : JNum) : a / JNum.nan = JNum.nan := by cases a <;> rfl
@[simp] theorem jlt_val_val (a b : ℚ) : jlt (JNum.val a) (JNum.val b) = decide (a < b) := rfl
@[simp] theorem jlt_nan_left (b : JNum) : jlt JNum.nan b = false := rfl
@[simp] theorem jlt_nan_right (a : JNum) : jlt a JNum.nan = false := by cases a <;> rfl
@[simp] theorem jle_val_val (a b : ℚ) : jle (JNum.val a) (JNum.val b) = decide (a ≤ b) := rfl
@[simp] theorem jle_nan_left (b : JNum) : jle JNum.nan b = false := rfl
@[simp] theorem jle_nan_right (a : JNum) : jle a JNum.nan = false := by cases a <;> rfl
@[simp] theorem jmax_val_val (a b : ℚ) : jmax (JNum.val a) (JNum.val b) = JNum.val (max a b) := rfl
@[simp] theorem jmax_nan_left (b : JNum) : jmax JNum.nan b = JNum.nan := rfl
@[simp] theorem jmax_nan_right (a : JNum) : jmax a JNum.nan = JNum.nan := by cases a <;> rfl
@[simp] theorem jmin_val_val (a b : ℚ) : jmin (JNum.val a) (JNum.val b) = JNum.val (min a b) := rfl
@[simp] theorem jmin_nan_left (b : JNum) : jmin JNum.nan b = JNum.nan := rfl
@[simp] theorem jmin_nan_right (a : JNum) : jmin a JNum.nan = JNum.nan := by cases a <;> rfl
@[simp] theorem jabs_val (a : ℚ) : jabs (JNum.val a) = JNum.val |a| := rfl
@[simp] theorem jabs_nan : jabs JNum.nan = JNum.nan := rfl
@[simp] theorem jIsFinite_val (a : ℚ) : jIsFinite (JNum.val a) = true := rfl
@[simp] theorem jIsFinite_nan : jIsFinite JNum.nan = false := rfl
@[simp] theorem jeq_nan_left (b : JNum) : jeq JNum.nan b = false := rfl
@[simp] theorem jeq_nan_right (a : JNum) : jeq a JNum.nan = false := by cases a <;> rfl
@[simp] theorem jeq_val_val (a b : ℚ) : jeq (JNum.val a) (JNum.val b) = decide (a = b) := rfl

theorem val_div_of_ne (a b : ℚ) (hb : b ≠ 0) :
    JNum.val a / JNum.val b = JNum.val (a / b) := by
  show (if b = 0 then JNum.nan else JNum.val (a / b)) = _
  simp [hb]

/-- A compiled derivative function `f(t, y, params)` with the parameter
record pre-applied. -/
def Deriv : Type := JNum → List JNum → JNum

/-- `derivatives[i](t, y, params)`: indexing past the end of the
`derivatives` array yields a runtime failure in JS which the solvers
surface as a non-finite evaluation; modelled as `nan`. -/
def derivCall (derivs : List Deriv) (i : Nat) (t : JNum) (y : List JNum) : JNum :=
  match derivs.get? i with
  | some f => f t y
  | none => JNum.nan

/-- `SimulationResult` of `src/types/equations.ts` (the time entries are
`ℚ` for the fixed-step methods, whose time arithmetic never leaves the
rationals, and `JNum` for the adaptive method). -/
structure SimRes (τ : Type) where
  t : List τ
  y : List (List JNum)
  success : Bool
  message : String
  steps : Nat
deriving Repr, DecidableEq

/-- `SolverConfig` (the fields used by the fixed-step methods; the JS
default `maxSteps = 100000` is applied by the caller). -/
structure SolverConfig where
  dt : ℚ
  tEnd : ℚ
  maxSteps : Nat
deriving Repr

def msgDiverge : String := "La integración divergió (valores infinitos o NaN)"

def msgDivergeStartup : String :=
  "La integración divergió durante el arranque (valores infinitos o NaN)"

def msgMaxSteps : String := "Se alcanzó el número máximo de pasos"

def msgDone : String := "Integración completada"

def rkfDoneMsg (steps rejected : Nat) : String :=
  "Integración completada. Pasos: " ++ (toString steps ++ (", Rechazados: " ++ toString rejected))

def abDoneMsg (order steps : Nat) : String :=
  "Adams-Bashforth (orden " ++ (toString order ++ (") completado. Pasos: " ++ toString steps))

/-! ## Fixed-step Euler (`src/solvers/euler.ts`) -/

/-- The `while (t < tEnd && steps < maxSteps)` loop body of `euler`,
by structural recursion on the iteration budget.  Every iteration
increments `steps`, so calling with budget `maxSteps` is exact. -/
def eulerLoop (derivs : List Deriv) (dt tEnd : ℚ) (maxSteps : Nat) :
    Nat → ℚ → List JNum → List ℚ → List (List JNum) → Nat → SimRes ℚ
  | 0, _, _, tAcc, yAcc, steps =>
      ⟨tAcc, yAcc, true, if maxSteps ≤ steps then msgMaxSteps else msgDone, steps⟩
  | fuel + 1, t, y, tAcc, yAcc, steps =>
      if t < tEnd ∧ steps < maxSteps then
        let dydt := derivs.map fun f => f (Jv t) y
        let yNew := y.mapIdx fun i yi => yi + Jv dt * dydt.getD i JNum.nan
        if yNew.any fun v => ! jIsFinite v then
          ⟨tAcc, yAcc, false, msgDiverge, steps⟩
        else
          eulerLoop derivs dt tEnd maxSteps fuel (t + dt) yNew
            (tAcc ++ [t + dt]) (yAcc ++ [yNew]) (steps + 1)
      else
        ⟨tAcc, yAcc, true, if maxSteps ≤ steps then msgMaxSteps else msgDone, steps⟩

/-- `euler(y0, t0, derivatives, params, config)`. -/
def euler (y0 : List JNum) (t0 : ℚ) (derivs : List Deriv) (cfg : SolverConfig) : SimRes ℚ :=
  eulerLoop derivs cfg.dt cfg.tEnd cfg.maxSteps cfg.maxSteps t0 y0 [t0] [y0] 0

/-! ## Fixed-step classical Runge–Kutta (`rk4`, `src/solvers/rk4.ts`) -/

/-- The main loop of `rk4`. -/
def rk4Loop (derivs : List Deriv) (dt tEnd : ℚ) (maxSteps : Nat) :
    Nat → ℚ → List JNum → List ℚ → List (List JNum) → Nat → SimRes ℚ
  | 0, _, _, tAcc, yAcc, steps =>
      ⟨tAcc, yAcc, true, if maxSteps ≤ steps then msgMaxSteps else msgDone, steps⟩
  | fuel + 1, t, y, tAcc, yAcc, steps =>
      if t < tEnd ∧ steps < maxSteps then
        let k1 := derivs.map fun f => f (Jv t) y
        let y2 := y.mapIdx fun i yi => yi + Jv (1/2) * Jv dt * k1.getD i JNum.nan
        let k2 := derivs.map fun f => f (Jv (t + 1/2 * dt)) y2
        let y3 := y.mapIdx fun i yi => yi + Jv (1/2) * Jv dt * k2.getD i JNum.nan
        let k3 := derivs.map fun f => f (Jv (t + 1/2 * dt)) y3
        let y4 := y.mapIdx fun i yi => yi + Jv dt * k3.getD i JNum.nan
        let k4 := derivs.map fun f => f (Jv (t + dt)) y4
        let yNew := y.mapIdx fun i yi =>
          yi + Jv (dt / 6) *
            (k1.getD i JNum.nan + Jv 2 * k2.getD i JNum.nan +
              Jv 2 * k3.getD i JNum.nan + k4.getD i JNum.nan)
        if yNew.any fun v => ! jIsFinite v then
          ⟨tAcc, yAcc, false, msgDiverge, steps⟩
        else
          rk4Loop derivs dt tEnd maxSteps fuel (t + dt) yNew
            (tAcc ++ [t + dt]) (yAcc ++ [yNew]) (steps + 1)
      else
        ⟨tAcc, yAcc, true, if maxSteps ≤ steps then msgMaxSteps else msgDone, steps⟩

/-- `rk4(y0, t0, derivatives, params, config)`. -/
def rk4 (y0 : List JNum) (t0 : ℚ) (derivs : List Deriv) (cfg : SolverConfig) : SimRes ℚ :=
  rk4Loop derivs cfg.dt cfg.tEnd cfg.maxSteps cfg.maxSteps t0 y0 [t0] [y0] 0

/-! ## Adams–Bashforth (`src/solvers/adamsBashforth.ts`) -/

/-- `AB_COEFFICIENTS` (the TS type restricts `order` to 2, 3 or 4; any
other index reads `undefined` in JS, which aborts the run through the
catch-all handler — unreachable under the TS types). -/
def abCoeffs : Nat → List ℚ
  | 2 => [3/2, -1/2]
  | 3 => [23/12, -16/12, 5/12]
  | 4 => [55/24, -59/24, 37/24, -9/24]
  | _ => []

/-- `AdamsBashforthConfig` (`order` 0 stands for the absent field,
defaulted to 4 by `config.order || 4`). -/
structure ABConfig where
  dt : ℚ
  tEnd : ℚ
  maxSteps : Nat
  order : Nat
deriving Repr

/-- The mutable loop state of `adamsBashforth`: current time and state,
the result accumulators, the accepted-step count and the derivative
history `fHistory`. -/
structure ABState where
  t : ℚ
  y : List JNum
  tAcc : List ℚ
  yAcc : List (List JNum)
  steps : Nat
  fHist : List (List JNum)

/-- One RK4 step as inlined in the startup phase of `adamsBashforth`. -/
def abRk4Step (derivs : List Deriv) (dt : ℚ) (t : ℚ) (y : List JNum) : List JNum :=
  let k1 := derivs.map fun f => f (Jv t) y
  let y1 := y.mapIdx fun i yi => yi + Jv (dt / 2) * k1.getD i JNum.nan
  let k2 := derivs.map fun f => f (Jv (t + dt / 2)) y1
  let y2 := y.mapIdx fun i yi => yi + Jv (dt / 2) * k2.getD i JNum.nan
  let k3 := derivs.map fun f => f (Jv (t + dt / 2)) y2
  let y3 := y.mapIdx fun i yi => yi + Jv dt * k3.getD i JNum.nan
  let k4 := derivs.map fun f => f (Jv (t + dt)) y3
  y.mapIdx fun i yi =>
    yi + Jv (dt / 6) *
      (k1.getD i JNum.nan + Jv 2 * k2.getD i JNum.nan +
        Jv 2 * k3.getD i JNum.nan + k4.getD i JNum.nan)

/-- The startup `for` loop of `adamsBashforth` (at most `order - 1` RK4
steps, also guarded by `t < tEnd && steps < maxSteps`); a divergence
during startup returns the failure result immediately
(`Except.error`), otherwise the state is handed to the main phase. -/
def abStartup (derivs : List Deriv) (dt tEnd : ℚ) (maxSteps : Nat) :
    Nat → ABState → Except (SimRes ℚ) ABState
  | 0, s => Except.ok s
  | i + 1, s =>
    if s.t < tEnd ∧ s.steps < maxSteps then
      let yNew := abRk4Step derivs dt s.t s.y
      let t' := s.t + dt
      let tAcc' := s.tAcc ++ [t']
      let yAcc' := s.yAcc ++ [yNew]
      let steps' := s.steps + 1
      let fNew := derivs.map fun f => f (Jv t') yNew
      let fHist' := s.fHist ++ [fNew]
      if yNew.any fun v => ! jIsFinite v then
        Except.error ⟨tAcc', yAcc', false, msgDivergeStartup, steps'⟩
      else
        abStartup derivs dt tEnd maxSteps i ⟨t', yNew, tAcc', yAcc', steps', fHist'⟩
    else Except.ok s

/-- The main Adams–Bashforth `while` loop.  The step is clipped so the
final step lands on `tEnd`; the divergence check happens after the new
point has been recorded. -/
def abMain (derivs : List Deriv) (dt tEnd : ℚ) (maxSteps order : Nat) (coeffs : List ℚ) :
    Nat → ABState → SimRes ℚ
  | 0, s => ⟨s.tAcc, s.yAcc, true, abDoneMsg order s.steps, s.steps⟩
  | fuel + 1, s =>
    if s.t < tEnd ∧ s.steps < maxSteps then
      let h := if tEnd < s.t + dt then tEnd - s.t else dt
      let yNew := s.y.mapIdx fun i yi =>
        yi + Jv h *
          ((List.range order).foldl
            (fun sum j =>
              sum + Jv (coeffs.getD j 0) *
                (s.fHist.getD (s.fHist.length - 1 - j) []).getD i JNum.nan)
            (Jv 0))
      let t' := s.t + h
      let tAcc' := s.tAcc ++ [t']
      let yAcc' := s.yAcc ++ [yNew]
      let steps' := s.steps + 1
      let fNew := derivs.map fun f => f (Jv t') yNew
      let fHist0 := s.fHist ++ [fNew]
      let fHist' := if order < fHist0.length then fHist0.drop 1 else fHist0
      if yNew.any fun v => ! jIsFinite v then
        ⟨tAcc', yAcc', false, msgDiverge, steps'⟩
      else
        abMain derivs dt tEnd maxSteps order coeffs fuel ⟨t', yNew, tAcc', yAcc', steps', fHist'⟩
    else ⟨s.tAcc, s.yAcc, true, abDoneMsg order s.steps, s.steps⟩

/-- `adamsBashforth(y0, t0, derivatives, params, config)`. -/
def adamsBashforth (y0 : List JNum) (t0 : ℚ) (derivs : List Deriv) (cfg : ABConfig) :
    SimRes ℚ :=
  let order := if cfg.order = 0 then 4 else cfg.order
  let f0 := derivs.map fun f => f (Jv t0) y0
  match abStartup derivs cfg.dt cfg.tEnd cfg.maxSteps (order - 1)
      ⟨t0, y0, [t0], [y0], 0, [f0]⟩ with
  | Except.error r => r
  | Except.ok s => abMain derivs cfg.dt cfg.tEnd cfg.maxSteps order (abCoeffs order) cfg.maxSteps s

/-! ## Adaptive Runge–Kutta–Fehlberg (`rkf45`, `src/solvers/rkf45.ts`) -/

/-- Stage abscissas `A`. -/
def rkfA : List ℚ := [0, 1/4, 3/8, 12/13, 1, 1/2]

/-- Stage coefficient rows `B`. -/
def rkfB : List (List ℚ) :=
  [[0],
   [1/4],
   [3/32, 9/32],
   [1932/2197, -7200/2197, 7296/2197],
   [439/216, -8, 3680/513, -845/4104],
   [-8/27, 2, -3544/2565, 1859/4104, -11/40]]

/-- Order-4 output weights `C4`. -/
def rkfC4 : List ℚ := [25/216, 0, 1408/2565, 2197/4104, -1/5, 0]

/-- Order-5 output weights `C5`. -/
def rkfC5 : List ℚ := [16/135, 0, 6656/12825, 28561/56430, -9/50, 2/55]

/-- `RKF45Config` (defaults `tolerance = 1e-6`, `minStep = 1e-10`,
`maxStep = 1`, `safetyFactor = 0.9` are applied by the caller). -/
structure RKF45Config where
  dt : ℚ
  tEnd : ℚ
  maxSteps : Nat
  tolerance : ℚ
  minStep : ℚ
  maxStep : ℚ
  safetyFactor : ℚ
deriving Repr

/-- The fixed data of one `rkf45` run. -/
structure RParams where
  derivs : List Deriv
  n : Nat
  tEnd : ℚ
  tolerance : ℚ
  minStep : ℚ
  maxStep : ℚ
  safetyFactor : ℚ
  pw : ℚ → ℚ
  maxSteps : Nat

/-- The mutable loop state of `rkf45`. -/
structure RState where
  t : JNum
  y : List JNum
  dt : JNum
  tAcc : List JNum
  yAcc : List (List JNum)
  steps : Nat
  rejected : Nat

/-- `Math.pow(x, 0.2)`: `NaN` for `NaN` or negative input, otherwise
the abstract fifth root `pw`. -/
def jpowFifth (pw : ℚ → ℚ) : JNum → JNum
  | JNum.val q => if q < 0 then JNum.nan else JNum.val (pw q)
  | JNum.nan => JNum.nan

/-- The step actually attempted: `dt`, clipped to land on `tEnd`
(`if (t + dt > tEnd) dt = tEnd - t`). -/
def rkfDt1 (p : RParams) (s : RState) : JNum :=
  if jlt (Jv p.tEnd) (s.t + s.dt) then Jv p.tEnd - s.t else s.dt

/-- The six stage evaluations `k[0] … k[5]`. -/
def rkfKs (p : RParams) (t : JNum) (y : List JNum) (dt1 : JNum) : List (List JNum) :=
  let k0 := (List.range p.n).map fun i => derivCall p.derivs i t y
  [1, 2, 3, 4, 5].foldl
    (fun ks stage =>
      let tStage := t + Jv (rkfA.getD stage 0) * dt1
      let yStage := (List.range p.n).map fun i =>
        y.getD i JNum.nan + dt1 *
          ((List.range stage).foldl
            (fun sum j =>
              sum + Jv ((rkfB.getD stage []).getD j 0) * (ks.getD j []).getD i JNum.nan)
            (Jv 0))
      ks ++ [(List.range p.n).map fun i => derivCall p.derivs i tStage yStage])
    [k0]

/-- The order-4 solution `y4`. -/
def rkfY4 (p : RParams) (y : List JNum) (dt1 : JNum) (ks : List (List JNum)) : List JNum :=
  (List.range p.n).map fun i =>
    y.getD i JNum.nan + dt1 *
      ((List.range 6).foldl
        (fun sum j => sum + Jv (rkfC4.getD j 0) * (ks.getD j []).getD i JNum.nan) (Jv 0))

/-- The order-5 solution `y5`. -/
def rkfY5 (p : RParams) (y : List JNum) (dt1 : JNum) (ks : List (List JNum)) : List JNum :=
  (List.range p.n).map fun i =>
    y.getD i JNum.nan + dt1 *
      ((List.range 6).foldl
        (fun sum j => sum + Jv (rkfC5.getD j 0) * (ks.getD j []).getD i JNum.nan) (Jv 0))

/-- The scalar error estimate: the running
`error = Math.max(error, |y5[i] - y4[i]| / Math.max(|y[i]|, |y5[i]|, 1e-10))`
fold of the source, starting from 0. -/
def rkfError (n : Nat) (y y4 y5 : List JNum) : JNum :=
  (List.range n).foldl
    (fun error i =>
      let e := jabs (y5.getD i JNum.nan - y4.getD i JNum.nan)
      let scale := jmax (jabs (y.getD i JNum.nan))
        (jmax (jabs (y5.getD i JNum.nan)) (Jv (1/10000000000)))
      jmax error (e / scale))
    (Jv 0)

/-- The step-size update performed after every attempt: double on zero
error, otherwise `safetyFactor * dt * (tolerance/error)^0.2`, always
clamped into `[minStep, maxStep]`. -/
def rkfNextDt (p : RParams) (dt1 err : JNum) : JNum :=
  let newDt :=
    if jeq err (Jv 0) then dt1 * Jv 2
    else Jv p.safetyFactor * dt1 * jpowFifth p.pw (Jv p.tolerance / err)
  jmax (Jv p.minStep) (jmin (Jv p.maxStep) newDt)

/-- Outcome of one loop iteration of `rkf45`: either the early failure
result (divergence detected after recording the accepted point), or the
next loop state together with whether the attempt was accepted. -/
inductive RStep where
  | diverged : SimRes JNum → RStep
  | next : RState → Bool → RStep

/-- The error estimate of the attempt from state `s`: `rkfError` on the
current state and the two solutions computed with the clipped step. -/
def rkfErrOf (p : RParams) (s : RState) : JNum :=
  rkfError p.n s.y (rkfY4 p s.y (rkfDt1 p s) (rkfKs p s.t s.y (rkfDt1 p s)))
    (rkfY5 p s.y (rkfDt1 p s) (rkfKs p s.t s.y (rkfDt1 p s)))

/-- The acceptance test of the loop body:
`error <= tolerance || dt <= minStep` (on the clipped step). -/
def rkfAccepts (p : RParams) (s : RState) : Bool :=
  jle (rkfErrOf p s) (Jv p.tolerance) || jle (rkfDt1 p s) (Jv p.minStep)

/-- One iteration of the `rkf45` loop body: clip the step, evaluate the
six stages, form both solutions and the error estimate, accept
(`error <= tolerance || dt <= minStep`) or reject, then update `dt`.
On acceptance the order-5 solution advances the state and is recorded
before the divergence check. -/
def rkf45Attempt (p : RParams) (s : RState) : RStep :=
  let dt1 := rkfDt1 p s
  let y5 := rkfY5 p s.y dt1 (rkfKs p s.t s.y dt1)
  if rkfAccepts p s then
    let t' := s.t + dt1
    let tAcc' := s.tAcc ++ [t']
    let yAcc' := s.yAcc ++ [y5]
    let steps' := s.steps + 1
    if y5.any fun v => ! jIsFinite v then
      RStep.diverged ⟨tAcc', yAcc', false, msgDiverge, steps'⟩
    else
      RStep.next ⟨t', y5, rkfNextDt p dt1 (rkfErrOf p s), tAcc', yAcc', steps', s.rejected⟩ true
  else
    RStep.next
      ⟨s.t, s.y, rkfNextDt p dt1 (rkfErrOf p s), s.tAcc, s.yAcc, s.steps, s.rejected + 1⟩ false

/-- The success result built when the `rkf45` loop exits. -/
def rkfFinish (s : RState) : SimRes JNum :=
  ⟨s.tAcc, s.yAcc, true, rkfDoneMsg s.steps s.rejected, s.steps⟩

/-- The `while (t < tEnd && steps < maxSteps)` loop of `rkf45`.  Since
rejected attempts do not increment `steps`, the source loop has no
intrinsic iteration bound; `fuel` bounds the number of iterations and
all theorems below hold for every value of it. -/
def rkf45Loop (p : RParams) : Nat → RState → SimRes JNum
  | 0, s => rkfFinish s
  | fuel + 1, s =>
    if jlt s.t (Jv p.tEnd) = true ∧ s.steps < p.maxSteps then
      match rkf45Attempt p s with
      | RStep.diverged r => r
      | RStep.next s' _ => rkf45Loop p fuel s'
    else rkfFinish s

/-- `rkf45(y0, t0, derivatives, params, config)`; the initial step is
`config.dt || 0.01`. -/
def rkf45 (y0 : List JNum) (t0 : ℚ) (derivs : List Deriv) (pw : ℚ → ℚ)
    (cfg : RKF45Config) (fuel : Nat) : SimRes JNum :=
  let dt0 := if cfg.dt = 0 then 1/100 else cfg.dt
  rkf45Loop
    ⟨derivs, y0.length, cfg.tEnd, cfg.tolerance, cfg.minStep, cfg.maxStep,
      cfg.safetyFactor, pw, cfg.maxSteps⟩
    fuel ⟨Jv t0, y0, Jv dt0, [Jv t0], [y0], 0, 0⟩

/-! ## Expression compiler (`src/types/equations.ts`)

The compiler is a chain of JS regex replacements over the expression
text.  `String.replace` with a global regex finds successive
non-overlapping leftmost matches in the original string and splices the
replacement text without rescanning it; that is modelled by a scanner
over `List Char` that tries to match at each position (the patterns
used here never need regex backtracking: every greedy piece is followed
by a character its class excludes, so maximal munch is exact). -/

/-- `[a-zA-Z_]`. -/
def isIdentStart (c : Char) : Bool := c.isAlpha || c = '_'

/-- `[a-zA-Z0-9_]` (regex `\w`). -/
def isWordChar (c : Char) : Bool := c.isAlphanum || c = '_'

/-- Maximal match of `[a-zA-Z_][a-zA-Z0-9_]*`. -/
def takeIdent : List Char → Option (List Char × List Char)
  | [] => none
  | c :: rest =>
    if isIdentStart c then
      let p := rest.span isWordChar
      some (c :: p.1, p.2)
    else none

/-- Maximal match of `\d+\.?\d*`. -/
def takeNumeral : List Char → Option (List Char × List Char)
  | [] => none
  | c :: rest =>
    if c.isDigit then
      let p := rest.span Char.isDigit
      match p.2 with
      | '.' :: r2 =>
        let q := r2.span Char.isDigit
        some (c :: p.1 ++ '.' :: q.1, q.2)
      | _ => some (c :: p.1, p.2)
    else none

def mathPowOpen : String := "Math.pow("

def commaSpace : String := ", "

/-- Replacement text `Math.pow(base, exp)`. -/
def powRepl (base exp : List Char) : List Char :=
  mathPowOpen.toList ++ base ++ commaSpace.toList ++ exp ++ [')']

/-- Case 1 of `convertPowers`: `identifier^numeral`. -/
def tryCase1 (cs : List Char) : Option (List Char × List Char) :=
  match takeIdent cs with
  | some (base, r1) =>
    match r1 with
    | '^' :: r2 =>
      match takeNumeral r2 with
      | some (exp, r3) => some (powRepl base exp, r3)
      | none => none
    | _ => none
  | none => none

/-- Case 2 of `convertPowers`: `identifier^identifier`. -/
def tryCase2 (cs : List Char) : Option (List Char × List Char) :=
  match takeIdent cs with
  | some (base, r1) =>
    match r1 with
    | '^' :: r2 =>
      match takeIdent r2 with
      | some (exp, r3) => some (powRepl base exp, r3)
      | none => none
    | _ => none
  | none => none

/-- First half of case 3: `)^numeral` is rewritten to `, numeral)`. -/
def tryCase3a : List Char → Option (List Char × List Char)
  | ')' :: '^' :: r1 =>
    match takeNumeral r1 with
    | some (exp, r2) => some (',' :: ' ' :: exp ++ [')'], r2)
    | none => none
  | _ => none

/-- Second half of case 3: `((X), numeral)` with paren-free `X` becomes
`Math.pow(X, numeral)`. -/
def tryCase3b : List Char → Option (List Char × List Char)
  | '(' :: '(' :: r1 =>
    let p := r1.span fun c => !(c = '(' || c = ')')
    if p.1.isEmpty then none
    else
      match p.2 with
      | ')' :: ',' :: ' ' :: r3 =>
        match takeNumeral r3 with
        | some (exp, r4) =>
          match r4 with
          | ')' :: r5 => some (powRepl p.1 exp, r5)
          | _ => none
        | none => none
      | _ => none
  | _ => none

/-- Case 4 of `convertPowers`: `numeral^identifier`. -/
def tryCase4 (cs : List Char) : Option (List Char × List Char) :=
  match takeNumeral cs with
  | some (base, r1) =>
    match r1 with
    | '^' :: r2 =>
      match takeIdent r2 with
      | some (exp, r3) => some (powRepl base exp, r3)
      | none => none
    | _ => none
  | none => none

/-- Global regex replacement: try a match at every position, splice the
replacement and continue after the match.  Every successful match
consumes at least one character, so a budget of `cs.length` is exact. -/
def scanReplace (tryf : List Char → Option (List Char × List Char)) :
    Nat → List Char → List Char
  | 0, cs => cs
  | _ + 1, [] => []
  | fuel + 1, c :: rest =>
    match tryf (c :: rest) with
    | some (repl, rest') => repl ++ scanReplace tryf fuel rest'
    | none => c :: scanReplace tryf fuel rest

/-- One `String.replace(..., /g)` pass. -/
def replaceG (tryf : List Char → Option (List Char × List Char)) (cs : List Char) :
    List Char :=
  scanReplace tryf cs.length cs

/-- One iteration of the `convertPowers` rewrite (the four chained
`replace` calls, in source order). -/
def convertStep (cs : List Char) : List Char :=
  let r1 := replaceG tryCase1 cs
  let r2 := replaceG tryCase2 r1
  let r3 := replaceG tryCase3b (replaceG tryCase3a r2)
  replaceG tryCase4 r3

/-- The `while (result !== prevResult)` fixpoint loop of
`convertPowers` (`prevResult` starts as the empty string); `fuel`
bounds the number of iterations of a loop the source leaves
unbounded. -/
def convertLoop : Nat → List Char → List Char → List Char
  | 0, _, result => result
  | fuel + 1, prevResult, result =>
    if result = prevResult then result
    else convertLoop fuel result (convertStep result)

/-- `convertPowers(expr)` of `parseEquation`. -/
def convertPowers (fuel : Nat) (expr : List Char) : List Char :=
  convertLoop fuel [] expr

/-- Split a string into maximal word-character runs and single
non-word characters; the flag marks word runs.  A regex `\bw\b` for an
identifier `w` matches exactly the word runs equal to `w`. -/
def splitRuns : Nat → List Char → List (Bool × List Char)
  | 0, _ => []
  | _ + 1, [] => []
  | fuel + 1, c :: rest =>
    if isWordChar c then
      let p := rest.span isWordChar
      (true, c :: p.1) :: splitRuns fuel p.2
    else (false, [c]) :: splitRuns fuel rest

/-- `body.replace(new RegExp("\\b" + w + "\\b", "g"), repl)` for an
identifier `w`. -/
def replaceWord (w repl : List Char) (cs : List Char) : List Char :=
  ((splitRuns cs.length cs).map fun pr =>
    if pr.1 = true ∧ pr.2 = w then repl else pr.2).flatten

/-- All matches of `\b([a-zA-Z_][a-zA-Z0-9_]*)\b`: the word runs that
start with a letter or underscore. -/
def exprWords (cs : List Char) : List (List Char) :=
  (splitRuns cs.length cs).filterMap fun pr =>
    if pr.1 then
      match pr.2 with
      | c :: _ => if isIdentStart c then some pr.2 else none
      | [] => none
    else none

/-- Insertion-ordered deduplication (a JS `Set` iterates in insertion
order). -/
def dedup (l : List (List Char)) : List (List Char) :=
  l.foldl (fun acc w => if w ∈ acc then acc else acc ++ [w]) []

/-- `body.split(pat).join(repl)`: leftmost non-overlapping substring
replacement. -/
def replaceSub (pat repl : List Char) : Nat → List Char → List Char
  | 0, cs => cs
  | _ + 1, [] => []
  | fuel + 1, c :: rest =>
    if (c :: rest).take pat.length = pat ∧ pat ≠ [] then
      repl ++ replaceSub pat repl fuel ((c :: rest).drop pat.length)
    else c :: replaceSub pat repl fuel rest

def replaceSubAll (pat repl cs : List Char) : List Char :=
  replaceSub pat repl cs.length cs

/-- The keys of `MATH_FUNCTIONS`, in declaration order. -/
def mathFunctionNames : List String :=
  ["sin", "cos", "tan", "asin", "acos", "atan", "sinh", "cosh", "tanh",
   "exp", "log", "ln", "log10", "sqrt", "abs", "sign", "floor", "ceil", "round"]

/-- The keys of `MATH_CONSTANTS`, in declaration order. -/
def mathConstantNames : List String := ["pi", "e", "PI", "E"]

def placeholderMid : String := "___VAR_"

def placeholderEnd : String := "___"

/-- `___VAR_<index>___`. -/
def placeholderFor (index : Nat) : List Char :=
  placeholderMid.toList ++ (toString index).toList ++ placeholderEnd.toList

/-- `y[<index>]`. -/
def yIndexText (index : Nat) : List Char :=
  'y' :: '[' :: (toString index).toList ++ [']']

def paramsPre : String := "params."

def mathPre : String := "Math."

/-- Free identifiers classified as implicit parameters: not a variable,
not a math function or constant, not one of the reserved evaluation
context names. -/
def isReservedWord (varNames : List (List Char)) (w : List Char) : Bool :=
  varNames.contains w ||
  (mathFunctionNames.map String.toList).contains w ||
  (mathConstantNames.map String.toList).contains w ||
  w = "y".toList || w = "t".toList || w = "params".toList ||
  w = "Math".toList || w = "pow".toList

/-- `parseEquation(equation, variables)` up to the `new Function` call:
produces the generated function body text (the JS engine's evaluation
of that text is modelled separately by `jsNumEval`). -/
def parseEquationBody (fuel : Nat) (equation : String) (varNames : List String) :
    List Char :=
  let cleanedEq := equation.trim.toList
  let converted := convertPowers fuel cleanedEq
  let vars := varNames.map String.toList
  let afterPH := vars.enum.foldl
    (fun body iv => replaceWord iv.2 (placeholderFor iv.1) body) converted
  let afterVars := vars.enum.foldl
    (fun body iv => replaceSubAll (placeholderFor iv.1) (yIndexText iv.1) body) afterPH
  let usedParams := dedup ((exprWords afterVars).filter fun w => ! isReservedWord vars w)
  let afterParams := usedParams.foldl
    (fun body w => replaceWord w (paramsPre.toList ++ w) body) afterVars
  let afterFuncs := (mathFunctionNames.map String.toList).foldl
    (fun body w => replaceWord w (mathPre.toList ++ w) body) afterParams
  (mathConstantNames.map String.toList).foldl
    (fun body w => replaceWord w (mathPre.toList ++ w) body) afterFuncs

/-! ## Evaluation of the generated function body

`parseEquation` hands the generated text to `new Function('t', 'y',
'params', ...)`; the JS engine's evaluation of that arithmetic subset
is modelled by a small recursive-descent evaluator over the token
stream.  Unsupported constructs (anything outside the arithmetic
fragment the generator can emit, and transcendental results that leave
`ℚ`) evaluate to `none`. -/

/-- Digits to a natural number. -/
def digitsToNat (ds : List Char) : Nat :=
  ds.foldl (fun n c => 10 * n + (c.toNat - '0'.toNat)) 0

/-- A `\d+\.?\d*` numeral to an exact rational. -/
def numeralToRat (ds : List Char) : ℚ :=
  let p := ds.span Char.isDigit
  match p.2 with
  | '.' :: fpart => (digitsToNat p.1 : ℚ) + (digitsToNat fpart : ℚ) / (10 ^ fpart.length : ℚ)
  | _ => (digitsToNat p.1 : ℚ)

/-- Tokens of the generated JS body. -/
inductive JSTok where
  | num : ℚ → JSTok
  | name : List Char → JSTok
  | lparen | rparen | lbrack | rbrack | comma | plus | minus | star | slash
deriving DecidableEq, Repr

/-- Member access chains (`params.sigma`, `Math.pow`) merged into a
single dotted name. -/
def takeDots : Nat → List Char → List Char → List Char × List Char
  | 0, acc, cs => (acc, cs)
  | fuel + 1, acc, cs =>
    match cs with
    | '.' :: r =>
      match takeIdent r with
      | some (w, r2) => takeDots fuel (acc ++ '.' :: w) r2
      | none => (acc, cs)
    | _ => (acc, cs)

/-- Tokenizer for the generated body. -/
def jsLex : Nat → List Char → Option (List JSTok)
  | 0, [] => some []
  | 0, _ => none
  | _ + 1, [] => some []
  | fuel + 1, c :: rest =>
    if c = ' ' || c = '\t' || c = '\n' then jsLex fuel rest
    else if c.isDigit then
      match takeNumeral (c :: rest) with
      | some (ds, r) => do
        let ts ← jsLex fuel r
        pure (JSTok.num (numeralToRat ds) :: ts)
      | none => none
    else if isIdentStart c then
      match takeIdent (c :: rest) with
      | some (w, r) => do
        let p := takeDots r.length w r
        let ts ← jsLex fuel p.2
        pure (JSTok.name p.1 :: ts)
      | none => none
    else
      match c with
      | '(' => do pure (JSTok.lparen :: (← jsLex fuel rest))
      | ')' => do pure (JSTok.rparen :: (← jsLex fuel rest))
      | '[' => do pure (JSTok.lbrack :: (← jsLex fuel rest))
      | ']' => do pure (JSTok.rbrack :: (← jsLex fuel rest))
      | ',' => do pure (JSTok.comma :: (← jsLex fuel rest))
      | '+' => do pure (JSTok.plus :: (← jsLex fuel rest))
      | '-' => do pure (JSTok.minus :: (← jsLex fuel rest))
      | '*' => do pure (JSTok.star :: (← jsLex fuel rest))
      | '/' => do pure (JSTok.slash :: (← jsLex fuel rest))
      | _ => none

/-- JS unary minus. -/
def jneg : JNum → JNum
  | JNum.val q => JNum.val (-q)
  | JNum.nan => JNum.nan

/-- `Math.pow` restricted to integer exponents (whose values stay in
`ℚ`); `0` raised to a negative power is `Infinity`, hence non-finite.
Non-integer exponents generally produce irrational values that the
rational model cannot represent; no claim needs them. -/
def jsPow : JNum → JNum → JNum
  | JNum.val b, JNum.val e =>
    if e.den = 1 then
      if 0 ≤ e.num then JNum.val (b ^ e.num.toNat)
      else if b = 0 then JNum.nan
      else JNum.val (b ^ e.num)
    else JNum.nan
  | _, _ => JNum.nan

/-- The `Math.*` unary functions whose exact values stay rational. -/
def jsMathUnary (w : List Char) : Option (JNum → JNum) :=
  if w = "abs".toList then some jabs
  else if w = "sign".toList then
    some fun v => match v with
      | JNum.val q => JNum.val (if q < 0 then -1 else if q = 0 then 0 else 1)
      | JNum.nan => JNum.nan
  else if w = "floor".toList then
    some fun v => match v with
      | JNum.val q => JNum.val (⌊q⌋ : ℚ)
      | JNum.nan => JNum.nan
  else if w = "ceil".toList then
    some fun v => match v with
      | JNum.val q => JNum.val (⌈q⌉ : ℚ)
      | JNum.nan => JNum.nan
  else none

/-- Environment of the generated function: the arguments `t`, `y`,
`params`. -/
structure JSEnv where
  t : JNum
  y : List JNum
  params : List (String × ℚ)

mutual

/-- Additive level (`+`, `-`, left associative). -/
def jsAddE : Nat → JSEnv → List JSTok → Option (JNum × List JSTok)
  | 0, _, _ => none
  | fuel + 1, env, ts => do
    let (v, r) ← jsMulE fuel env ts
    jsAddLoop fuel env v r

def jsAddLoop : Nat → JSEnv → JNum → List JSTok → Option (JNum × List JSTok)
  | 0, _, _, _ => none
  | fuel + 1, env, acc, ts =>
    match ts with
    | JSTok.plus :: r => do
      let (v, r2) ← jsMulE fuel env r
      jsAddLoop fuel env (acc + v) r2
    | JSTok.minus :: r => do
      let (v, r2) ← jsMulE fuel env r
      jsAddLoop fuel env (acc - v) r2
    | _ => some (acc, ts)

/-- Multiplicative level (`*`, `/`, left associative). -/
def jsMulE : Nat → JSEnv → List JSTok → Option (JNum × List JSTok)
  | 0, _, _ => none
  | fuel + 1, env, ts => do
    let (v, r) ← jsUnaryE fuel env ts
    jsMulLoop fuel env v r

def jsMulLoop : Nat → JSEnv → JNum → List JSTok → Option (JNum × List JSTok)
  | 0, _, _, _ => none
  | fuel + 1, env, acc, ts =>
    match ts with
    | JSTok.star :: r => do
      let (v, r2) ← jsUnaryE fuel env r
      jsMulLoop fuel env (acc * v) r2
    | JSTok.slash :: r => do
      let (v, r2) ← jsUnaryE fuel env r
      jsMulLoop fuel env (acc / v) r2
    | _ => some (acc, ts)

/-- Unary level (`-x`, `+x`). -/
def jsUnaryE : Nat → JSEnv → List JSTok → Option (JNum × List JSTok)
  | 0, _, _ => none
  | fuel + 1, env, ts =>
    match ts with
    | JSTok.minus :: r => do
      let (v, r2) ← jsUnaryE fuel env r
      some (jneg v, r2)
    | JSTok.plus :: r => jsUnaryE fuel env r
    | _ => jsAtomE fuel env ts

/-- Atoms: numerals, parenthesized expressions, `t`, `y[i]`,
`params.name` (a missing parameter is `undefined`, which behaves as
`NaN` in arithmetic), `Math.pow(a, b)` and the rational-valued `Math.*`
unary functions. -/
def jsAtomE : Nat → JSEnv → List JSTok → Option (JNum × List JSTok)
  | 0, _, _ => none
  | fuel + 1, env, ts =>
    match ts with
    | JSTok.num q :: r => some (Jv q, r)
    | JSTok.lparen :: r => do
      let (v, r2) ← jsAddE fuel env r
      match r2 with
      | JSTok.rparen :: r3 => some (v, r3)
      | _ => none
    | JSTok.name p :: r =>
      if p = "y".toList then
        match r with
        | JSTok.lbrack :: JSTok.num q :: JSTok.rbrack :: r2 =>
          if q.den = 1 ∧ 0 ≤ q.num then some (env.y.getD q.num.toNat JNum.nan, r2)
          else none
        | _ => none
      else if p = "t".toList then some (env.t, r)
      else if p.take 7 = "params.".toList then
        match env.params.find? fun kv => kv.1.toList = p.drop 7 with
        | some kv => some (Jv kv.2, r)
        | none => some (JNum.nan, r)
      else if p = "Math.pow".toList then
        match r with
        | JSTok.lparen :: r1 => do
          let (a, r2) ← jsAddE fuel env r1
          match r2 with
          | JSTok.comma :: r3 => do
            let (b, r4) ← jsAddE fuel env r3
            match r4 with
            | JSTok.rparen :: r5 => some (jsPow a b, r5)
            | _ => none
          | _ => none
        | _ => none
      else if p.take 5 = "Math.".toList then
        match jsMathUnary (p.drop 5) with
        | some g =>
          match r with
          | JSTok.lparen :: r1 => do
            let (a, r2) ← jsAddE fuel env r1
            match r2 with
            | JSTok.rparen :: r3 => some (g a, r3)
            | _ => none
          | _ => none
        | none => none
      else none
    | _ => none

end

/-- Evaluate a generated function body at `(t, y, params)`; `none`
models a syntax error or an unsupported construct. -/
def jsNumEval (body : List Char) (t : JNum) (y : List JNum)
    (params : List (String × ℚ)) : Option JNum :=
  match jsLex body.length body with
  | some ts =>
    match jsAddE (8 * ts.length + 8) ⟨t, y, params⟩ ts with
    | some (v, []) => some v
    | _ => none
  | none => none

/-- The derivative function produced by `parseEquation`, as the
composition of the text pipeline and the JS evaluation model. -/
def parsedDeriv (fuel : Nat) (equation : String) (varNames : List String)
    (params : List (String × ℚ)) : Deriv :=
  fun t y =>
    match jsNumEval (parseEquationBody fuel equation varNames) t y params with
    | some v => v
    | none => JNum.nan

/-! ## Nullcline extraction (`src/utils/nullclines.ts`) -/

/-- A point of a nullcline curve. -/
structure NPoint where
  x : JNum
  y : JNum
deriving DecidableEq, Repr

/-- `interpolateZero(x1, f1, x2, f2)`: the linear zero crossing, or the
midpoint in the degenerate `f1 === f2` case. -/
def interpolateZero (x1 : ℚ) (f1 : JNum) (x2 : ℚ) (f2 : JNum) : JNum :=
  if jeq f1 f2 then Jv ((x1 + x2) / 2)
  else Jv x1 - f1 * (Jv x2 - Jv x1) / (f2 - f1)

/-- `calculateNullclines(equation, xRange, yRange, resolution)`.  The
equation's first two compiled derivatives are sampled at `t = 0` on the
`(resolution+1)²` grid over two-component states `[x, y]` (an
evaluation exception in the source is caught into `NaN`, covered by
`derivCall`'s `nan`); the marching-squares pass then collects the
interpolated zero crossings of each component, cell by cell, checking
the outer boundary edges in the last row and column. -/
def calculateNullclines (derivs : List Deriv) (xRange yRange : ℚ × ℚ)
    (resolution : Nat) : List NPoint × List NPoint :=
  if derivs.length < 2 then ([], [])
  else
    let xStep := (xRange.2 - xRange.1) / (resolution : ℚ)
    let yStep := (yRange.2 - yRange.1) / (resolution : ℚ)
    let dxGrid := (List.range (resolution + 1)).map fun i =>
      (List.range (resolution + 1)).map fun j =>
        derivCall derivs 0 (Jv 0)
          [Jv (xRange.1 + (i : ℚ) * xStep), Jv (yRange.1 + (j : ℚ) * yStep)]
    let dyGrid := (List.range (resolution + 1)).map fun i =>
      (List.range (resolution + 1)).map fun j =>
        derivCall derivs 1 (Jv 0)
          [Jv (xRange.1 + (i : ℚ) * xStep), Jv (yRange.1 + (j : ℚ) * yStep)]
    (List.range resolution).foldl
      (fun acc (i : Nat) =>
        (List.range resolution).foldl
          (fun acc2 (j : Nat) =>
            let x := xRange.1 + (i : ℚ) * xStep
            let y := yRange.1 + (j : ℚ) * yStep
            let dx00 := (dxGrid.getD i []).getD j JNum.nan
            let dx10 := (dxGrid.getD (i + 1) []).getD j JNum.nan
            let dx01 := (dxGrid.getD i []).getD (j + 1) JNum.nan
            let dx11 := (dxGrid.getD (i + 1) []).getD (j + 1) JNum.nan
            let dy00 := (dyGrid.getD i []).getD j JNum.nan
            let dy10 := (dyGrid.getD (i + 1) []).getD j JNum.nan
            let dy01 := (dyGrid.getD i []).getD (j + 1) JNum.nan
            let dy11 := (dyGrid.getD (i + 1) []).getD (j + 1) JNum.nan
            let xs :=
              if jIsFinite dx00 && jIsFinite dx10 && jIsFinite dx01 && jIsFinite dx11 then
                (if jlt (dx00 * dx10) (Jv 0) then
                  [⟨interpolateZero x dx00 (x + xStep) dx10, Jv y⟩] else []) ++
                (if jlt (dx00 * dx01) (Jv 0) then
                  [⟨Jv x, interpolateZero y dx00 (y + yStep) dx01⟩] else []) ++
                (if j = resolution - 1 ∧ jlt (dx01 * dx11) (Jv 0) = true then
                  [⟨interpolateZero x dx01 (x + xStep) dx11, Jv (y + yStep)⟩] else []) ++
                (if i = resolution - 1 ∧ jlt (dx10 * dx11) (Jv 0) = true then
                  [⟨Jv (x + xStep), interpolateZero y dx10 (y + yStep) dx11⟩] else [])
              else []
            let ys :=
              if jIsFinite dy00 && jIsFinite dy10 && jIsFinite dy01 && jIsFinite dy11 then
                (if jlt (dy00 * dy10) (Jv 0) then
                  [⟨interpolateZero x dy00 (x + xStep) dy10, Jv y⟩] else []) ++
                (if jlt (dy00 * dy01) (Jv 0) then
                  [⟨Jv x, interpolateZero y dy00 (y + yStep) dy01⟩] else []) ++
                (if j = resolution - 1 ∧ jlt (dy01 * dy11) (Jv 0) = true then
                  [⟨interpolateZero x dy01 (x + xStep) dy11, Jv (y + yStep)⟩] else []) ++
                (if i = resolution - 1 ∧ jlt (dy10 * dy11) (Jv 0) = true then
                  [⟨Jv (x + xStep), interpolateZero y dy10 (y + yStep) dy11⟩] else [])
              else []
            (acc2.1 ++ xs, acc2.2 ++ ys))
          acc)
      ([], [])

/-! ## List helpers -/

theorem allFinite_of_any_not {l : List JNum}
    (h : (l.any fun v => ! jIsFinite v) = false) : allFinite l = true := by
  unfold allFinite
  rw [List.all_eq_true]
  intro v hv
  by_contra hne
  have : (l.any fun v => ! jIsFinite v) = true :=
    List.any_eq_true.mpr ⟨v, hv, by simp [Bool.eq_false_iff.mpr hne]⟩
  rw [h] at this
  exact Bool.false_ne_true this

theorem chain'_concat_of_last {α : Type} {R : α → α → Prop} {l : List α} {x : α}
    (hc : List.Chain' R l) (hl : ∀ a ∈ l.getLast?, R a x) :
    List.Chain' R (l ++ [x]) := by
  rw [List.chain'_append]
  refine ⟨hc, List.chain'_singleton x, ?_⟩
  intro a ha b hb
  simp only [List.head?_cons, Option.mem_def, Option.some.injEq] at hb
  subst hb
  exact hl a ha

/-! ## Loop invariants: `euler` -/

theorem eulerLoop_ext (derivs : List Deriv) (dt tEnd : ℚ) (maxSteps : Nat) :
    ∀ (fuel : Nat) (t : ℚ) (y : List JNum) (tAcc : List ℚ)
      (yAcc : List (List JNum)) (steps : Nat),
      ∃ e1 e2,
        (eulerLoop derivs dt tEnd maxSteps fuel t y tAcc yAcc steps).t = tAcc ++ e1 ∧
        (eulerLoop derivs dt tEnd maxSteps fuel t y tAcc yAcc steps).y = yAcc ++ e2 := by
  intro fuel
  induction fuel with
  | zero =>
    intro t y tAcc yAcc steps
    exact ⟨[], [], by simp [eulerLoop], by simp [eulerLoop]⟩
  | succ n ih =>
    intro t y tAcc yAcc steps
    by_cases hg : t < tEnd ∧ steps < maxSteps
    · simp only [eulerLoop, if_pos hg]
      split
    
      · exact ⟨[], [], by simp, by simp⟩
      · obtain ⟨e1, e2, h1, h2⟩ := ih (t + dt) _ (tAcc ++ [t + dt]) (yAcc ++ [_]) (steps + 1)
        exact ⟨[t + dt] ++ e1, [_] ++ e2,
          by rw [h1, List.append_assoc], by rw [h2, List.append_assoc]⟩
    · simp only [eulerLoop, if_neg hg]
      exact ⟨[], [], by simp, by simp⟩

theorem eulerLoop_len (derivs : List Deriv) (dt tEnd : ℚ) (maxSteps : Nat) :
    ∀ (fuel : Nat) (t : ℚ) (y : List JNum) (tAcc : List ℚ)
      (yAcc : List (List JNum)) (steps : Nat),
      tAcc.length = steps + 1 → yAcc.length = steps + 1 →
      (eulerLoop derivs dt tEnd maxSteps fuel t y tAcc yAcc steps).t.length =
        (eulerLoop derivs dt tEnd maxSteps fuel t y tAcc yAcc steps).steps + 1 ∧
      (eulerLoop derivs dt tEnd maxSteps fuel t y tAcc yAcc steps).y.length =
        (eulerLoop derivs dt tEnd maxSteps fuel t y tAcc yAcc steps).steps + 1 := by
  intro fuel
  induction fuel with
  | zero =>
    intro t y tAcc yAcc steps h1 h2
    exact ⟨by simp [eulerLoop, h1], by simp [eulerLoop, h2]⟩
  | succ n ih =>
    intro t y tAcc yAcc steps h1 h2
    by_cases hg : t < tEnd ∧ steps < maxSteps
    · simp only [eulerLoop, if_pos hg]
      split
      · exact ⟨by simpa using h1, by simpa using h2⟩
      · exact ih (t + dt) _ (tAcc ++ [t + dt]) (yAcc ++ [_]) (steps + 1)
          (by simp [h1]) (by simp [h2])
    · simp only [eulerLoop, if_neg hg]
      exact ⟨by simpa using h1, by simpa using h2⟩

theorem eulerLoop_chain (derivs : List Deriv) (dt tEnd : ℚ) (maxSteps : Nat)
    (hdt : 0 < dt) :
    ∀ (fuel : Nat) (t : ℚ) (y : List JNum) (tAcc : List ℚ)
      (yAcc : List (List JNum)) (steps : Nat),
      List.Chain' (· < ·) tAcc → tAcc.getLast? = some t →
      List.Chain' (· < ·) (eulerLoop derivs dt tEnd maxSteps fuel t y tAcc yAcc steps).t := by
  intro fuel
  induction fuel with
  | zero =>
    intro t y tAcc yAcc steps hc _
    simpa [eulerLoop] using hc
  | succ n ih =>
    intro t y tAcc yAcc steps hc hlast
    by_cases hg : t < tEnd ∧ steps < maxSteps
    · simp only [eulerLoop, if_pos hg]
      split
      · simpa using hc
      · refine ih (t + dt) _ (tAcc ++ [t + dt]) (yAcc ++ [_]) (steps + 1) ?_ ?_
        · refine chain'_concat_of_last hc ?_
          intro a ha
          rw [hlast] at ha
          simp only [Option.mem_def, Option.some.injEq] at ha
          subst ha
          linarith
        · simp
    · simp only [eulerLoop, if_neg hg]
      simpa using hc

theorem eulerLoop_fin (derivs : List Deriv) (dt tEnd : ℚ) (maxSteps : Nat) :
    ∀ (fuel : Nat) (t : ℚ) (y : List JNum) (tAcc : List ℚ)
      (yAcc : List (List JNum)) (steps : Nat),
      (∀ v ∈ yAcc, allFinite v = true) →
      (∀ v ∈ (eulerLoop derivs dt tEnd maxSteps fuel t y tAcc yAcc steps).y,
        allFinite v = true) ∧
      ((eulerLoop derivs dt tEnd maxSteps fuel t y tAcc yAcc steps).success = false →
        (eulerLoop derivs dt tEnd maxSteps fuel t y tAcc yAcc steps).message = msgDiverge) := by
  intro fuel
  induction fuel with
  | zero =>
    intro t y tAcc yAcc steps hfin
    exact ⟨by simpa [eulerLoop] using hfin, by simp [eulerLoop]⟩
  | succ n ih =>
    intro t y tAcc yAcc steps hfin
    by_cases hg : t < tEnd ∧ steps < maxSteps
    · simp only [eulerLoop, if_pos hg]
      split
      · exact ⟨by simpa using hfin, fun _ => rfl⟩
      · rename_i hany
        refine ih (t + dt) _ (tAcc ++ [t + dt]) (yAcc ++ [_]) (steps + 1) ?_
        intro v hv
        rcases List.mem_append.mp hv with h | h
        · exact hfin v h
        · rw [List.mem_singleton] at h
          subst h
          exact allFinite_of_any_not (Bool.eq_false_iff.mpr hany)
    · simp only [eulerLoop, if_neg hg]
      exact ⟨by simpa using hfin, by simp⟩

theorem eulerLoop_msg (derivs : List Deriv) (dt tEnd : ℚ) (maxSteps : Nat) :
    ∀ (fuel : Nat) (t : ℚ) (y : List JNum) (tAcc : List ℚ)
      (yAcc : List (List JNum)) (steps : Nat),
      (eulerLoop derivs dt tEnd maxSteps fuel t y tAcc yAcc steps).success = true →
      (maxSteps ≤ (eulerLoop derivs dt tEnd maxSteps fuel t y tAcc yAcc steps).steps →
        (eulerLoop derivs dt tEnd maxSteps fuel t y tAcc yAcc steps).message = msgMaxSteps) ∧
      ((eulerLoop derivs dt tEnd maxSteps fuel t y tAcc yAcc steps).steps < maxSteps →
        (eulerLoop derivs dt tEnd maxSteps fuel t y tAcc yAcc steps).message = msgDone) := by
  intro fuel
  induction fuel with
  | zero =>
    intro t y tAcc yAcc steps _
    refine ⟨fun hle => ?_, fun hlt => ?_⟩
    · simp only [eulerLoop] at hle ⊢
      simp [hle]
    · simp only [eulerLoop] at hlt ⊢
      simp [Nat.not_le.mpr hlt]
  | succ n ih =>
    intro t y tAcc yAcc steps
    by_cases hg : t < tEnd ∧ steps < maxSteps
    · simp only [eulerLoop, if_pos hg]
      split
      · intro hs
        exact absurd hs (by simp)
      · exact ih (t + dt) _ (tAcc ++ [t + dt]) (yAcc ++ [_]) (steps + 1)
    · simp only [eulerLoop, if_neg hg]
      intro _
      refine ⟨fun hle => ?_, fun hlt => ?_⟩
      · simp [show maxSteps ≤ steps from hle]
      · simp [Nat.not_le.mpr (show steps < maxSteps from hlt)]

/-! ## Loop invariants: `rk4` -/

theorem rk4Loop_ext (derivs : List Deriv) (dt tEnd : ℚ) (maxSteps : Nat) :
    ∀ (fuel : Nat) (t : ℚ) (y : List JNum) (tAcc : List ℚ)
      (yAcc : List (List JNum)) (steps : Nat),
      ∃ e1 e2,
        (rk4Loop derivs dt tEnd maxSteps fuel t y tAcc yAcc steps).t = tAcc ++ e1 ∧
        (rk4Loop derivs dt tEnd maxSteps fuel t y tAcc yAcc steps).y = yAcc ++ e2 := by
  intro fuel
  induction fuel with
  | zero =>
    intro t y tAcc yAcc steps
    exact ⟨[], [], by simp [rk4Loop], by simp [rk4Loop]⟩
  | succ n ih =>
    intro t y tAcc yAcc steps
    by_cases hg : t < tEnd ∧ steps < maxSteps
    · simp only [rk4Loop, if_pos hg]
      split
    
      · exact ⟨[], [], by simp, by simp⟩
      · obtain ⟨e1, e2, h1, h2⟩ := ih (t + dt) _ (tAcc ++ [t + dt]) (yAcc ++ [_]) (steps + 1)
        exact ⟨[t + dt] ++ e1, [_] ++ e2,
          by rw [h1, List.append_assoc], by rw [h2, List.append_assoc]⟩
    · simp only [rk4Loop, if_neg hg]
      exact ⟨[], [], by simp, by simp⟩

theorem rk4Loop_len (derivs : List Deriv) (dt tEnd : ℚ) (maxSteps : Nat) :
    ∀ (fuel : Nat) (t : ℚ) (y : List JNum) (tAcc : List ℚ)
      (yAcc : List (List JNum)) (steps : Nat),
      tAcc.length = steps + 1 → yAcc.length = steps + 1 →
      (rk4Loop derivs dt tEnd maxSteps fuel t y tAcc yAcc steps).t.length =
        (rk4Loop derivs dt tEnd maxSteps fuel t y tAcc yAcc steps).steps + 1 ∧
      (rk4Loop derivs dt tEnd maxSteps fuel t y tAcc yAcc steps).y.length =
        (rk4Loop derivs dt tEnd maxSteps fuel t y tAcc yAcc steps).steps + 1 := by
  intro fuel
  induction fuel with
  | zero =>
    intro t y tAcc yAcc steps h1 h2
    exact ⟨by simp [rk4Loop, h1], by simp [rk4Loop, h2]⟩
  | succ n ih =>
    intro t y tAcc yAcc steps h1 h2
    by_cases hg : t < tEnd ∧ steps < maxSteps
    · simp only [rk4Loop, if_pos hg]
      split
      · exact ⟨by simpa using h1, by simpa using h2⟩
      · exact ih (t + dt) _ (tAcc ++ [t + dt]) (yAcc ++ [_]) (steps + 1)
          (by simp [h1]) (by simp [h2])
    · simp only [rk4Loop, if_neg hg]
      exact ⟨by simpa using h1, by simpa using h2⟩

theorem rk4Loop_chain (derivs : List Deriv) (dt tEnd : ℚ) (maxSteps : Nat)
    (hdt : 0 < dt) :
    ∀ (fuel : Nat) (t : ℚ) (y : List JNum) (tAcc : List ℚ)
      (yAcc : List (List JNum)) (steps : Nat),
      List.Chain' (· < ·) tAcc → tAcc.getLast? = some t →
      List.Chain' (· < ·) (rk4Loop derivs dt tEnd maxSteps fuel t y tAcc yAcc steps).t := by
  intro fuel
  induction fuel with
  | zero =>
    intro t y tAcc yAcc steps hc _
    simpa [rk4Loop] using hc
  | succ n ih =>
    intro t y tAcc yAcc steps hc hlast
    by_cases hg : t < tEnd ∧ steps < maxSteps
    · simp only [rk4Loop, if_pos hg]
      split
      · simpa using hc
      · refine ih (t + dt) _ (tAcc ++ [t + dt]) (yAcc ++ [_]) (steps + 1) ?_ ?_
        · refine chain'_concat_of_last hc ?_
          intro a ha
          rw [hlast] at ha
          simp only [Option.mem_def, Option.some.injEq] at ha
          subst ha
          linarith
        · simp
    · simp only [rk4Loop, if_neg hg]
      simpa using hc

theorem rk4Loop_fin (derivs : List Deriv) (dt tEnd : ℚ) (maxSteps : Nat) :
    ∀ (fuel : Nat) (t : ℚ) (y : List JNum) (tAcc : List ℚ)
      (yAcc : List (List JNum)) (steps : Nat),
      (∀ v ∈ yAcc, allFinite v = true) →
      (∀ v ∈ (rk4Loop derivs dt tEnd maxSteps fuel t y tAcc yAcc steps).y,
        allFinite v = true) ∧
      ((rk4Loop derivs dt tEnd maxSteps fuel t y tAcc yAcc steps).success = false →
        (rk4Loop derivs dt tEnd maxSteps fuel t y tAcc yAcc steps).message = msgDiverge) := by
  intro fuel
  induction fuel with
  | zero =>
    intro t y tAcc yAcc steps hfin
    exact ⟨by simpa [rk4Loop] using hfin, by simp [rk4Loop]⟩
  | succ n ih =>
    intro t y tAcc yAcc steps hfin
    by_cases hg : t < tEnd ∧ steps < maxSteps
    · simp only [rk4Loop, if_pos hg]
      split
      · exact ⟨by simpa using hfin, fun _ => rfl⟩
      · rename_i hany
        refine ih (t + dt) _ (tAcc ++ [t + dt]) (yAcc ++ [_]) (steps + 1) ?_
        intro v hv
        rcases List.mem_append.mp hv with h | h
        · exact hfin v h
        · rw [List.mem_singleton] at h
          subst h
          exact allFinite_of_any_not (Bool.eq_false_iff.mpr hany)
    · simp only [rk4Loop, if_neg hg]
      exact ⟨by simpa using hfin, by simp⟩

theorem rk4Loop_msg (derivs : List Deriv) (dt tEnd : ℚ) (maxSteps : Nat) :
    ∀ (fuel : Nat) (t : ℚ) (y : List JNum) (tAcc : List ℚ)
      (yAcc : List (List JNum)) (steps : Nat),
      (rk4Loop derivs dt tEnd maxSteps fuel t y tAcc yAcc steps).success = true →
      (maxSteps ≤ (rk4Loop derivs dt tEnd maxSteps fuel t y tAcc yAcc steps).steps →
        (rk4Loop derivs dt tEnd maxSteps fuel t y tAcc yAcc steps).message = msgMaxSteps) ∧
      ((rk4Loop derivs dt tEnd maxSteps fuel t y tAcc yAcc steps).steps < maxSteps →
        (rk4Loop derivs dt tEnd maxSteps fuel t y tAcc yAcc steps).message = msgDone) := by
  intro fuel
  induction fuel with
  | zero =>
    intro t y tAcc yAcc steps _
    refine ⟨fun hle => ?_, fun hlt => ?_⟩
    · simp only [rk4Loop] at hle ⊢
      simp [hle]
    · simp only [rk4Loop] at hlt ⊢
      simp [Nat.not_le.mpr hlt]
  | succ n ih =>
    intro t y tAcc yAcc steps
    by_cases hg : t < tEnd ∧ steps < maxSteps
    · simp only [rk4Loop, if_pos hg]
      split
      · intro hs
        exact absurd hs (by simp)
      · exact ih (t + dt) _ (tAcc ++ [t + dt]) (yAcc ++ [_]) (steps + 1)
    · simp only [rk4Loop, if_neg hg]
      intro _
      refine ⟨fun hle => ?_, fun hlt => ?_⟩
      · simp [show maxSteps ≤ steps from hle]
      · simp [Nat.not_le.mpr (show steps < maxSteps from hlt)]

/-! ## Loop invariants: `adamsBashforth` -/

/-- Recorded times of a startup-phase outcome. -/
def abResT : Except (SimRes ℚ) ABState → List ℚ
  | Except.error r => r.t
  | Except.ok s => s.tAcc

/-- Recorded states of a startup-phase outcome. -/
def abResY : Except (SimRes ℚ) ABState → List (List JNum)
  | Except.error r => r.y
  | Except.ok s => s.yAcc

/-- Accepted steps of a startup-phase outcome. -/
def abResSteps : Except (SimRes ℚ) ABState → Nat
  | Except.error r => r.steps
  | Except.ok s => s.steps

/-- Strict monotonicity invariant of a startup-phase outcome. -/
def ExChain : Except (SimRes ℚ) ABState → Prop
  | Except.error r => List.Chain' (· < ·) r.t
  | Except.ok s => List.Chain' (· < ·) s.tAcc ∧ s.tAcc.getLast? = some s.t

/-- Finiteness invariant of a startup-phase outcome. -/
def ExFin : Except (SimRes ℚ) ABState → Prop
  | Except.error r => r.success = false ∧
      (r.message = msgDiverge ∨ r.message = msgDivergeStartup) ∧
      (∀ v ∈ r.y.dropLast, allFinite v = true) ∧
      (∃ w, r.y.getLast? = some w ∧ (w.any fun v => ! jIsFinite v) = true)
  | Except.ok s => ∀ v ∈ s.yAcc, allFinite v = true

/-- A startup-phase failure result is marked unsuccessful. -/
def ExMsg : Except (SimRes ℚ) ABState → Prop
  | Except.error r => r.success = false
  | Except.ok _ => True

theorem abStartup_ext (derivs : List Deriv) (dt tEnd : ℚ) (maxSteps : Nat) :
    ∀ (i : Nat) (s : ABState),
      ∃ e1 e2,
        abResT (abStartup derivs dt tEnd maxSteps i s) = s.tAcc ++ e1 ∧
        abResY (abStartup derivs dt tEnd maxSteps i s) = s.yAcc ++ e2 := by
  intro i
  induction i with
  | zero =>
    intro s
    exact ⟨[], [], by simp [abStartup, abResT], by simp [abStartup, abResY]⟩
  | succ n ih =>
    intro s
    by_cases hg : s.t < tEnd ∧ s.steps < maxSteps
    · simp only [abStartup, if_pos hg]
      split
      · exact ⟨_, _, rfl, rfl⟩
      · obtain ⟨e1, e2, h1, h2⟩ := ih _
        refine ⟨(s.t + dt) :: e1, abRk4Step derivs dt s.t s.y :: e2, ?_, ?_⟩
        · rw [h1]
          simp
        · rw [h2]
          simp
    · simp only [abStartup, if_neg hg]
      exact ⟨[], [], by simp [abResT], by simp [abResY]⟩

theorem abStartup_len (derivs : List Deriv) (dt tEnd : ℚ) (maxSteps : Nat) :
    ∀ (i : Nat) (s : ABState),
      s.tAcc.length = s.steps + 1 → s.yAcc.length = s.steps + 1 →
      (abResT (abStartup derivs dt tEnd maxSteps i s)).length =
        abResSteps (abStartup derivs dt tEnd maxSteps i s) + 1 ∧
      (abResY (abStartup derivs dt tEnd maxSteps i s)).length =
        abResSteps (abStartup derivs dt tEnd maxSteps i s) + 1 := by
  intro i
  induction i with
  | zero =>
    intro s h1 h2
    exact ⟨by simp [abStartup, abResT, abResSteps, h1], by simp [abStartup, abResY, abResSteps, h2]⟩
  | succ n ih =>
    intro s h1 h2
    by_cases hg : s.t < tEnd ∧ s.steps < maxSteps
    · simp only [abStartup, if_pos hg]
      split
      · exact ⟨by simp [abResT, abResSteps, h1], by simp [abResY, abResSteps, h2]⟩
      · exact ih _ (by simp [h1]) (by simp [h2])
    · simp only [abStartup, if_neg hg]
      exact ⟨by simp [abResT, abResSteps, h1], by simp [abResY, abResSteps, h2]⟩

theorem abStartup_chain (derivs : List Deriv) (dt tEnd : ℚ) (maxSteps : Nat)
    (hdt : 0 < dt) :
    ∀ (i : Nat) (s : ABState),
      List.Chain' (· < ·) s.tAcc → s.tAcc.getLast? = some s.t →
      ExChain (abStartup derivs dt tEnd maxSteps i s) := by
  intro i
  induction i with
  | zero =>
    intro s hc hlast
    simpa [abStartup, ExChain] using ⟨hc, hlast⟩
  | succ n ih =>
    intro s hc hlast
    have hstep : ∀ a ∈ s.tAcc.getLast?, a < s.t + dt := by
      intro a ha
      rw [hlast] at ha
      simp only [Option.mem_def, Option.some.injEq] at ha
      subst ha
      linarith
    by_cases hg : s.t < tEnd ∧ s.steps < maxSteps
    · simp only [abStartup, if_pos hg]
      split
      · exact chain'_concat_of_last hc hstep
      · exact ih _ (chain'_concat_of_last hc hstep) (by simp)
    · simp only [abStartup, if_neg hg]
      exact ⟨hc, hlast⟩

theorem abStartup_fin (derivs : List Deriv) (dt tEnd : ℚ) (maxSteps : Nat) :
    ∀ (i : Nat) (s : ABState),
      (∀ v ∈ s.yAcc, allFinite v = true) →
      ExFin (abStartup derivs dt tEnd maxSteps i s) := by
  intro i
  induction i with
  | zero =>
    intro s hfin
    simpa [abStartup, ExFin] using hfin
  | succ n ih =>
    intro s hfin
    by_cases hg : s.t < tEnd ∧ s.steps < maxSteps
    · simp only [abStartup, if_pos hg]
      split
      · rename_i hany
        refine ⟨rfl, Or.inr rfl, ?_, ?_⟩
        · simpa using hfin
        · exact ⟨_, by simp, hany⟩
      · rename_i hany
        refine ih _ ?_
        intro v hv
        rcases List.mem_append.mp hv with h | h
        · exact hfin v h
        · rw [List.mem_singleton] at h
          subst h
          exact allFinite_of_any_not (Bool.eq_false_iff.mpr hany)
    · simp only [abStartup, if_neg hg]
      exact hfin

theorem abStartup_fail (derivs : List Deriv) (dt tEnd : ℚ) (maxSteps : Nat) :
    ∀ (i : Nat) (s : ABState), ExMsg (abStartup derivs dt tEnd maxSteps i s) := by
  intro i
  induction i with
  | zero =>
    intro s
    simp [abStartup, ExMsg]
  | succ n ih =>
    intro s
    by_cases hg : s.t < tEnd ∧ s.steps < maxSteps
    · simp only [abStartup, if_pos hg]
      split
      · exact rfl
      · exact ih _
    · simp only [abStartup, if_neg hg]
      simp [ExMsg]

theorem abMain_ext (derivs : List Deriv) (dt tEnd : ℚ) (maxSteps order : Nat)
    (coeffs : List ℚ) :
    ∀ (fuel : Nat) (s : ABState),
      ∃ e1 e2,
        (abMain derivs dt tEnd maxSteps order coeffs fuel s).t = s.tAcc ++ e1 ∧
        (abMain derivs dt tEnd maxSteps order coeffs fuel s).y = s.yAcc ++ e2 := by
  intro fuel
  induction fuel with
  | zero =>
    intro s
    exact ⟨[], [], by simp [abMain], by simp [abMain]⟩
  | succ n ih =>
    intro s
    by_cases hg : s.t < tEnd ∧ s.steps < maxSteps
    · simp only [abMain, if_pos hg]
      generalize (if tEnd < s.t + dt then tEnd - s.t else dt) = h0
      generalize (s.y.mapIdx fun i yi =>
        yi + Jv h0 *
          ((List.range order).foldl
            (fun sum j =>
              sum + Jv (coeffs.getD j 0) *
                (s.fHist.getD (s.fHist.length - 1 - j) []).getD i JNum.nan)
            (Jv 0))) = yN
      split
      · exact ⟨_, _, rfl, rfl⟩
      · obtain ⟨e1, e2, h1, h2⟩ := ih _
        refine ⟨(s.t + h0) :: e1, yN :: e2, ?_, ?_⟩
        · rw [h1]
          simp
        · rw [h2]
          simp
    · simp only [abMain, if_neg hg]
      exact ⟨[], [], by simp, by simp⟩

theorem abMain_len (derivs : List Deriv) (dt tEnd : ℚ) (maxSteps order : Nat)
    (coeffs : List ℚ) :
    ∀ (fuel : Nat) (s : ABState),
      s.tAcc.length = s.steps + 1 → s.yAcc.length = s.steps + 1 →
      (abMain derivs dt tEnd maxSteps order coeffs fuel s).t.length =
        (abMain derivs dt tEnd maxSteps order coeffs fuel s).steps + 1 ∧
      (abMain derivs dt tEnd maxSteps order coeffs fuel s).y.length =
        (abMain derivs dt tEnd maxSteps order coeffs fuel s).steps + 1 := by
  intro fuel
  induction fuel with
  | zero =>
    intro s h1 h2
    exact ⟨by simp [abMain, h1], by simp [abMain, h2]⟩
  | succ n ih =>
    intro s h1 h2
    by_cases hg : s.t < tEnd ∧ s.steps < maxSteps
    · simp only [abMain, if_pos hg]
      generalize (if tEnd < s.t + dt then tEnd - s.t else dt) = h0
      split
      · exact ⟨by simpa using h1, by simpa using h2⟩
      · exact ih _ (by simp [h1]) (by simp [h2])
    · simp only [abMain, if_neg hg]
      exact ⟨by simpa using h1, by simpa using h2⟩

theorem abMain_chain (derivs : List Deriv) (dt tEnd : ℚ) (maxSteps order : Nat)
    (coeffs : List ℚ) (hdt : 0 < dt) :
    ∀ (fuel : Nat) (s : ABState),
      List.Chain' (· < ·) s.tAcc → s.tAcc.getLast? = some s.t →
      List.Chain' (· < ·) (abMain derivs dt tEnd maxSteps order coeffs fuel s).t := by
  intro fuel
  induction fuel with
  | zero =>
    intro s hc _
    simpa [abMain] using hc
  | succ n ih =>
    intro s hc hlast
    by_cases hg : s.t < tEnd ∧ s.steps < maxSteps
    · simp only [abMain, if_pos hg]
      generalize hh0 : (if tEnd < s.t + dt then tEnd - s.t else dt) = h0
      have hpos : 0 < h0 := by
        rw [← hh0]
        split
        · linarith [hg.1]
        · exact hdt
      have hstep : ∀ a ∈ s.tAcc.getLast?, a < s.t + h0 := by
        intro a ha
        rw [hlast] at ha
        simp only [Option.mem_def, Option.some.injEq] at ha
        subst ha
        linarith
      split
      · simpa using chain'_concat_of_last hc hstep
      · exact ih _ (chain'_concat_of_last hc hstep) (by simp)
    · simp only [abMain, if_neg hg]
      simpa using hc

theorem abMain_fin (derivs : List Deriv) (dt tEnd : ℚ) (maxSteps order : Nat)
    (coeffs : List ℚ) :
    ∀ (fuel : Nat) (s : ABState),
      (∀ v ∈ s.yAcc, allFinite v = true) →
      ((abMain derivs dt tEnd maxSteps order coeffs fuel s).success = false →
        (abMain derivs dt tEnd maxSteps order coeffs fuel s).message = msgDiverge ∧
        (∀ v ∈ (abMain derivs dt tEnd maxSteps order coeffs fuel s).y.dropLast,
          allFinite v = true) ∧
        (∃ w, (abMain derivs dt tEnd maxSteps order coeffs fuel s).y.getLast? = some w ∧
          (w.any fun v => ! jIsFinite v) = true)) ∧
      ((abMain derivs dt tEnd maxSteps order coeffs fuel s).success = true →
        ∀ v ∈ (abMain derivs dt tEnd maxSteps order coeffs fuel s).y,
          allFinite v = true) := by
  intro fuel
  induction fuel with
  | zero =>
    intro s hfin
    exact ⟨by simp [abMain], by simpa [abMain] using hfin⟩
  | succ n ih =>
    intro s hfin
    by_cases hg : s.t < tEnd ∧ s.steps < maxSteps
    · simp only [abMain, if_pos hg]
      generalize (if tEnd < s.t + dt then tEnd - s.t else dt) = h0
      split
      · rename_i hany
        refine ⟨fun _ => ⟨rfl, ?_, ?_⟩, fun hs => absurd hs (by simp)⟩
        · simpa using hfin
        · exact ⟨_, by simp, hany⟩
      · rename_i hany
        refine ih _ ?_
        intro v hv
        rcases List.mem_append.mp hv with h | h
        · exact hfin v h
        · rw [List.mem_singleton] at h
          subst h
          exact allFinite_of_any_not (Bool.eq_false_iff.mpr hany)
    · simp only [abMain, if_neg hg]
      exact ⟨by simp, fun _ => by simpa using hfin⟩

theorem abMain_msg (derivs : List Deriv) (dt tEnd : ℚ) (maxSteps order : Nat)
    (coeffs : List ℚ) :
    ∀ (fuel : Nat) (s : ABState),
      (abMain derivs dt tEnd maxSteps order coeffs fuel s).success = true →
      (abMain derivs dt tEnd maxSteps order coeffs fuel s).message =
        abDoneMsg order (abMain derivs dt tEnd maxSteps order coeffs fuel s).steps := by
  intro fuel
  induction fuel with
  | zero =>
    intro s _
    simp [abMain]
  | succ n ih =>
    intro s
    by_cases hg : s.t < tEnd ∧ s.steps < maxSteps
    · simp only [abMain, if_pos hg]
      generalize (if tEnd < s.t + dt then tEnd - s.t else dt) = h0
      split
      · intro hs
        exact absurd hs (by simp)
      · exact ih _
    · simp only [abMain, if_neg hg]
      intro _
      simp

/-! ## Loop invariants: `rkf45` -/

/-- Invariant of the working step size: either `NaN`, or positive and
(except for the configured initial step, which the source never clamps)
inside `[minStep, maxStep]`. -/
def DtInv (dt0 minStep maxStep : ℚ) (dt : JNum) : Prop :=
  dt = JNum.nan ∨ ∃ d, dt = Jv d ∧ 0 < d ∧ (d = dt0 ∨ (minStep ≤ d ∧ d ≤ maxStep))

/-- Relation between consecutive recorded times of an `rkf45` run: both
finite, strictly increasing, and the step between them is either inside
`[minStep, maxStep]`, or the unclamped configured initial step, or
clipped to land exactly on `tEnd`. -/
def RRel (dt0 minStep maxStep tEnd : ℚ) (a b : JNum) : Prop :=
  ∃ qa qb, a = Jv qa ∧ b = Jv qb ∧ qa < qb ∧
    ((minStep ≤ qb - qa ∧ qb - qa ≤ maxStep) ∨ qb - qa = dt0 ∨ qb = tEnd)

theorem foldl_jmax_nan (g : Nat → JNum) :
    ∀ l : List Nat, l.foldl (fun e i => jmax e (g i)) JNum.nan = JNum.nan := by
  intro l
  induction l with
  | nil => rfl
  | cons a l ih => simpa using ih

/-- Folding `jmax` from `0` over a range whose first sample is `NaN`
yields `NaN`. -/
theorem foldl_jmax_first_nan (g : Nat → JNum) (hg : g 0 = JNum.nan) (m : Nat) :
    (List.range (m + 1)).foldl (fun e i => jmax e (g i)) (Jv 0) = JNum.nan := by
  rw [List.range_succ_eq_map, List.foldl_cons]
  have h0 : jmax (Jv 0) (g 0) = JNum.nan := by rw [hg]; simp
  rw [h0]
  exact foldl_jmax_nan g _

/-- With a `NaN` step every component of the order-5 solution is `NaN`,
so for a nonempty state the error estimate is `NaN`. -/
theorem rkfError_nan (p : RParams) (y y4 : List JNum) (ks : List (List JNum))
    (m : Nat) (hn : p.n = m + 1) :
    rkfError p.n y y4 (rkfY5 p y JNum.nan ks) = JNum.nan := by
  have h0 : (rkfY5 p y JNum.nan ks).getD 0 JNum.nan = JNum.nan := by
    unfold rkfY5
    rw [hn, List.range_succ_eq_map]
    simp
  unfold rkfError
  rw [hn]
  refine foldl_jmax_first_nan _ ?_ m
  rw [h0]
  simp

/-- The clamp `Math.max(minStep, Math.min(maxStep, newDt))` lands in
`[minStep, maxStep]` whenever its input is finite, and is `NaN`
otherwise. -/
theorem clamp_inv (minStep maxStep : ℚ) (hmm : minStep ≤ maxStep) (x : JNum) :
    jmax (Jv minStep) (jmin (Jv maxStep) x) = JNum.nan ∨
    ∃ d, jmax (Jv minStep) (jmin (Jv maxStep) x) = Jv d ∧
      minStep ≤ d ∧ d ≤ maxStep := by
  cases x with
  | nan => exact Or.inl (by simp [Jv])
  | val q =>
    refine Or.inr ⟨max minStep (min maxStep q), by simp [Jv], le_max_left _ _, ?_⟩
    exact max_le hmm (min_le_left _ _)

/-- The step-size update preserves the step-size invariant. -/
theorem rkfNextDt_inv (p : RParams) (dt0 : ℚ) (hms : 0 < p.minStep)
    (hmm : p.minStep ≤ p.maxStep) (dt1 err : JNum) :
    DtInv dt0 p.minStep p.maxStep (rkfNextDt p dt1 err) := by
  unfold rkfNextDt DtInv
  rcases clamp_inv p.minStep p.maxStep hmm
      (if jeq err (Jv 0) then dt1 * Jv 2
       else Jv p.safetyFactor * dt1 * jpowFifth p.pw (Jv p.tolerance / err)) with h | ⟨d, hd, h1, h2⟩
  · exact Or.inl h
  · exact Or.inr ⟨d, hd, lt_of_lt_of_le hms h1, Or.inr ⟨h1, h2⟩⟩

/-- With a zero error estimate the updated step size is finite. -/
theorem rkfNextDt_err0 (p : RParams) (d : ℚ) :
    ∃ d', rkfNextDt p (Jv d) (Jv 0) = Jv d' := by
  unfold rkfNextDt
  simp [Jv]

/-- On an empty state vector the error estimate is zero. -/
theorem rkfError_zero (y y4 y5 : List JNum) : rkfError 0 y y4 y5 = Jv 0 := rfl

/-- The attempted (clipped) step is finite whenever the current time is
finite and the working step is. -/
theorem rkfDt1_ne_nan (p : RParams) (s : RState) (tq : ℚ) (ht : s.t = Jv tq)
    (hdt : s.dt ≠ JNum.nan) : rkfDt1 p s ≠ JNum.nan := by
  unfold rkfDt1
  split
  · rw [ht]
    simp [Jv]
  · exact hdt

/-- An accepted attempt has a finite, positive step; moreover the step
is clamped into `[minStep, maxStep]`, or is the raw configured initial
step, or lands exactly on `tEnd`. -/
theorem rkfAccept_dt1 (p : RParams) (s : RState) (dt0 tq : ℚ)
    (htq : s.t = Jv tq) (hlt : tq < p.tEnd)
    (hdt : DtInv dt0 p.minStep p.maxStep s.dt)
    (hn0 : p.n = 0 → s.dt ≠ JNum.nan)
    (hacc : rkfAccepts p s = true) :
    ∃ d, rkfDt1 p s = Jv d ∧ 0 < d ∧
      ((p.minStep ≤ d ∧ d ≤ p.maxStep) ∨ d = dt0 ∨ tq + d = p.tEnd) := by
  by_cases hclip : jlt (Jv p.tEnd) (s.t + s.dt) = true
  · refine ⟨p.tEnd - tq, ?_, by linarith, Or.inr (Or.inr (by ring))⟩
    unfold rkfDt1
    rw [if_pos hclip, htq]
    simp [Jv]
  · have hd1 : rkfDt1 p s = s.dt := by
      unfold rkfDt1
      rw [if_neg hclip]
    rcases hdt with hnan | ⟨d, hd, hpos, hdisj⟩
    · exfalso
      have hdt1 : rkfDt1 p s = JNum.nan := by rw [hd1, hnan]
      rcases Nat.eq_zero_or_pos p.n with hn | hn
      · exact (hn0 hn) hnan
      · obtain ⟨m, hm⟩ := Nat.exists_eq_add_of_lt hn
        have herr : rkfErrOf p s = JNum.nan := by
          unfold rkfErrOf
          rw [hdt1]
          exact rkfError_nan p s.y _ _ m (by omega)
        unfold rkfAccepts at hacc
        rw [herr, hdt1] at hacc
        simp at hacc
    · exact ⟨d, by rw [hd1, hd], hpos,
        by rcases hdisj with h | h
           · exact Or.inr (Or.inl h)
           · exact Or.inl h⟩

/-- The recorded point of an accepted attempt from state `s`. -/
def rkfY5Of (p : RParams) (s : RState) : List JNum :=
  rkfY5 p s.y (rkfDt1 p s) (rkfKs p s.t s.y (rkfDt1 p s))

/-- The state reached by an accepted (non-divergent) attempt. -/
def rkfAccState (p : RParams) (s : RState) : RState :=
  ⟨s.t + rkfDt1 p s, rkfY5Of p s, rkfNextDt p (rkfDt1 p s) (rkfErrOf p s),
    s.tAcc ++ [s.t + rkfDt1 p s], s.yAcc ++ [rkfY5Of p s], s.steps + 1, s.rejected⟩

/-- The state reached by a rejected attempt. -/
def rkfRejState (p : RParams) (s : RState) : RState :=
  ⟨s.t, s.y, rkfNextDt p (rkfDt1 p s) (rkfErrOf p s),
    s.tAcc, s.yAcc, s.steps, s.rejected + 1⟩

/-- The failure result of an accepted attempt whose recorded point is
non-finite. -/
def rkfDivRes (p : RParams) (s : RState) : SimRes JNum :=
  ⟨s.tAcc ++ [s.t + rkfDt1 p s], s.yAcc ++ [rkfY5Of p s], false, msgDiverge, s.steps + 1⟩

/-- Complete case analysis of one loop iteration. -/
theorem rkf45Attempt_dispatch (p : RParams) (s : RState) :
    (rkfAccepts p s = true ∧
      ((rkf45Attempt p s = RStep.diverged (rkfDivRes p s) ∧
          ((rkfY5Of p s).any fun v => ! jIsFinite v) = true) ∨
       (rkf45Attempt p s = RStep.next (rkfAccState p s) true ∧
          ((rkfY5Of p s).any fun v => ! jIsFinite v) = false))) ∨
    (rkfAccepts p s = false ∧ rkf45Attempt p s = RStep.next (rkfRejState p s) false) := by
  by_cases hacc : rkfAccepts p s = true
  · refine Or.inl ⟨hacc, ?_⟩
    by_cases hany : ((rkfY5Of p s).any fun v => ! jIsFinite v) = true
    · refine Or.inl ⟨?_, hany⟩
      simp only [rkf45Attempt, if_pos hacc]
      rw [if_pos (show ((rkfY5 p s.y (rkfDt1 p s) (rkfKs p s.t s.y (rkfDt1 p s))).any
        fun v => ! jIsFinite v) = true from hany)]
      rfl
    · refine Or.inr ⟨?_, Bool.eq_false_iff.mpr hany⟩
      simp only [rkf45Attempt, if_pos hacc]
      rw [if_neg (show ¬ ((rkfY5 p s.y (rkfDt1 p s) (rkfKs p s.t s.y (rkfDt1 p s))).any
        fun v => ! jIsFinite v) = true from hany)]
      rfl
  · refine Or.inr ⟨Bool.eq_false_iff.mpr hacc, ?_⟩
    simp only [rkf45Attempt, if_neg hacc]
    rfl

/-- Loop step equation: divergent attempt. -/
theorem rkf45Loop_succ_div (p : RParams) (n : Nat) (s : RState) (r : SimRes JNum)
    (hg : jlt s.t (Jv p.tEnd) = true ∧ s.steps < p.maxSteps)
    (h : rkf45Attempt p s = RStep.diverged r) :
    rkf45Loop p (n + 1) s = r := by
  simp only [rkf45Loop, if_pos hg, h]

/-- Loop step equation: continuing attempt. -/
theorem rkf45Loop_succ_next (p : RParams) (n : Nat) (s s' : RState) (b : Bool)
    (hg : jlt s.t (Jv p.tEnd) = true ∧ s.steps < p.maxSteps)
    (h : rkf45Attempt p s = RStep.next s' b) :
    rkf45Loop p (n + 1) s = rkf45Loop p n s' := by
  simp only [rkf45Loop, if_pos hg, h]

/-- Loop exit equation. -/
theorem rkf45Loop_exit (p : RParams) (n : Nat) (s : RState)
    (hg : ¬ (jlt s.t (Jv p.tEnd) = true ∧ s.steps < p.maxSteps)) :
    rkf45Loop p (n + 1) s = rkfFinish s := by
  simp only [rkf45Loop, if_neg hg]

theorem rkf45Loop_ext (p : RParams) :
    ∀ (fuel : Nat) (s : RState),
      ∃ e1 e2,
        (rkf45Loop p fuel s).t = s.tAcc ++ e1 ∧
        (rkf45Loop p fuel s).y = s.yAcc ++ e2 := by
  intro fuel
  induction fuel with
  | zero =>
    intro s
    exact ⟨[], [], by simp [rkf45Loop, rkfFinish], by simp [rkf45Loop, rkfFinish]⟩
  | succ n ih =>
    intro s
    by_cases hg : jlt s.t (Jv p.tEnd) = true ∧ s.steps < p.maxSteps
    · rcases rkf45Attempt_dispatch p s with ⟨hacc, ⟨hdiv, hany⟩ | ⟨hnext, hany⟩⟩ | ⟨hacc, hnext⟩
      · rw [rkf45Loop_succ_div p n s _ hg hdiv]
        exact ⟨[s.t + rkfDt1 p s], [rkfY5Of p s], rfl, rfl⟩
      · rw [rkf45Loop_succ_next p n s _ true hg hnext]
        obtain ⟨e1, e2, h1, h2⟩ := ih (rkfAccState p s)
        refine ⟨(s.t + rkfDt1 p s) :: e1, rkfY5Of p s :: e2, ?_, ?_⟩
        · rw [h1]
          simp [rkfAccState]
        · rw [h2]
          simp [rkfAccState]
      · rw [rkf45Loop_succ_next p n s _ false hg hnext]
        obtain ⟨e1, e2, h1, h2⟩ := ih (rkfRejState p s)
        exact ⟨e1, e2, by rw [h1]; rfl, by rw [h2]; rfl⟩
    · rw [rkf45Loop_exit p n s hg]
      exact ⟨[], [], by simp [rkfFinish], by simp [rkfFinish]⟩

theorem rkf45Loop_len (p : RParams) :
    ∀ (fuel : Nat) (s : RState),
      s.tAcc.length = s.steps + 1 → s.yAcc.length = s.steps + 1 →
      (rkf45Loop p fuel s).t.length = (rkf45Loop p fuel s).steps + 1 ∧
      (rkf45Loop p fuel s).y.length = (rkf45Loop p fuel s).steps + 1 := by
  intro fuel
  induction fuel with
  | zero =>
    intro s h1 h2
    exact ⟨by simp [rkf45Loop, rkfFinish, h1], by simp [rkf45Loop, rkfFinish, h2]⟩
  | succ n ih =>
    intro s h1 h2
    by_cases hg : jlt s.t (Jv p.tEnd) = true ∧ s.steps < p.maxSteps
    · rcases rkf45Attempt_dispatch p s with ⟨hacc, ⟨hdiv, hany⟩ | ⟨hnext, hany⟩⟩ | ⟨hacc, hnext⟩
      · rw [rkf45Loop_succ_div p n s _ hg hdiv]
        exact ⟨by simp [rkfDivRes, h1], by simp [rkfDivRes, h2]⟩
      · rw [rkf45Loop_succ_next p n s _ true hg hnext]
        exact ih (rkfAccState p s) (by simp [rkfAccState, h1]) (by simp [rkfAccState, h2])
      · rw [rkf45Loop_succ_next p n s _ false hg hnext]
        exact ih (rkfRejState p s) (by simp [rkfRejState, h1]) (by simp [rkfRejState, h2])
    · rw [rkf45Loop_exit p n s hg]
      exact ⟨by simp [rkfFinish, h1], by simp [rkfFinish, h2]⟩

theorem rkf45Loop_fin (p : RParams) :
    ∀ (fuel : Nat) (s : RState),
      (∀ v ∈ s.yAcc, allFinite v = true) →
      ((rkf45Loop p fuel s).success = false →
        (rkf45Loop p fuel s).message = msgDiverge ∧
        (∀ v ∈ (rkf45Loop p fuel s).y.dropLast, allFinite v = true) ∧
        (∃ w, (rkf45Loop p fuel s).y.getLast? = some w ∧
          (w.any fun v => ! jIsFinite v) = true)) ∧
      ((rkf45Loop p fuel s).success = true →
        ∀ v ∈ (rkf45Loop p fuel s).y, allFinite v = true) := by
  intro fuel
  induction fuel with
  | zero =>
    intro s hfin
    exact ⟨by simp [rkf45Loop, rkfFinish], fun _ => by simpa [rkf45Loop, rkfFinish] using hfin⟩
  | succ n ih =>
    intro s hfin
    by_cases hg : jlt s.t (Jv p.tEnd) = true ∧ s.steps < p.maxSteps
    · rcases rkf45Attempt_dispatch p s with ⟨hacc, ⟨hdiv, hany⟩ | ⟨hnext, hany⟩⟩ | ⟨hacc, hnext⟩
      · rw [rkf45Loop_succ_div p n s _ hg hdiv]
        refine ⟨fun _ => ⟨rfl, ?_, ?_⟩, fun hs => absurd hs (by simp [rkfDivRes])⟩
        · simpa [rkfDivRes] using hfin
        · exact ⟨rkfY5Of p s, by simp [rkfDivRes], hany⟩
      · rw [rkf45Loop_succ_next p n s _ true hg hnext]
        refine ih (rkfAccState p s) ?_
        intro v hv
        simp only [rkfAccState] at hv
        rcases List.mem_append.mp hv with h | h
        · exact hfin v h
        · rw [List.mem_singleton] at h
          subst h
          exact allFinite_of_any_not hany
      · rw [rkf45Loop_succ_next p n s _ false hg hnext]
        exact ih (rkfRejState p s) hfin
    · rw [rkf45Loop_exit p n s hg]
      exact ⟨by simp [rkfFinish], fun _ => by simpa [rkfFinish] using hfin⟩

theorem rkf45Loop_msg (p : RParams) :
    ∀ (fuel : Nat) (s : RState),
      (rkf45Loop p fuel s).success = true →
      ∃ rej, (rkf45Loop p fuel s).message = rkfDoneMsg (rkf45Loop p fuel s).steps rej := by
  intro fuel
  induction fuel with
  | zero =>
    intro s _
    exact ⟨s.rejected, by simp [rkf45Loop, rkfFinish]⟩
  | succ n ih =>
    intro s
    by_cases hg : jlt s.t (Jv p.tEnd) = true ∧ s.steps < p.maxSteps
    · rcases rkf45Attempt_dispatch p s with ⟨hacc, ⟨hdiv, hany⟩ | ⟨hnext, hany⟩⟩ | ⟨hacc, hnext⟩
      · rw [rkf45Loop_succ_div p n s _ hg hdiv]
        intro hs
        exact absurd hs (by simp [rkfDivRes])
      · rw [rkf45Loop_succ_next p n s _ true hg hnext]
        exact ih _
      · rw [rkf45Loop_succ_next p n s _ false hg hnext]
        exact ih _
    · rw [rkf45Loop_exit p n s hg]
      intro _
      exact ⟨s.rejected, by simp [rkfFinish]⟩

theorem rkf45Loop_chain (p : RParams) (dt0 : ℚ)
    (hms : 0 < p.minStep) (hmm : p.minStep ≤ p.maxStep) :
    ∀ (fuel : Nat) (s : RState),
      (∃ tq, s.t = Jv tq) →
      s.tAcc.getLast? = some s.t →
      List.Chain' (RRel dt0 p.minStep p.maxStep p.tEnd) s.tAcc →
      DtInv dt0 p.minStep p.maxStep s.dt →
      (p.n = 0 → s.dt ≠ JNum.nan) →
      List.Chain' (RRel dt0 p.minStep p.maxStep p.tEnd) (rkf45Loop p fuel s).t := by
  intro fuel
  induction fuel with
  | zero =>
    intro s _ _ hc _ _
    simpa [rkf45Loop, rkfFinish] using hc
  | succ n ih =>
    intro s hts hlast hc hdt hn0
    obtain ⟨tq, htq⟩ := hts
    by_cases hg : jlt s.t (Jv p.tEnd) = true ∧ s.steps < p.maxSteps
    · have hlt : tq < p.tEnd := by
        have := hg.1
        rw [htq] at this
        simpa [Jv] using this
      rcases rkf45Attempt_dispatch p s with ⟨hacc, ⟨hdiv, hany⟩ | ⟨hnext, hany⟩⟩ | ⟨hacc, hnext⟩
      · obtain ⟨d, hd1, hdpos, hdisj⟩ := rkfAccept_dt1 p s dt0 tq htq hlt hdt hn0 hacc
        rw [rkf45Loop_succ_div p n s _ hg hdiv]
        refine chain'_concat_of_last hc ?_
        intro a ha
        rw [hlast] at ha
        simp only [Option.mem_def, Option.some.injEq] at ha
        subst ha
        refine ⟨tq, tq + d, htq, by rw [htq, hd1]; simp [Jv], by linarith, ?_⟩
        have hcd : tq + d - tq = d := by ring
        rcases hdisj with h | h | h
        · exact Or.inl (by rw [hcd]; exact h)
        · exact Or.inr (Or.inl (by rw [hcd]; exact h))
        · exact Or.inr (Or.inr h)
      · obtain ⟨d, hd1, hdpos, hdisj⟩ := rkfAccept_dt1 p s dt0 tq htq hlt hdt hn0 hacc
        rw [rkf45Loop_succ_next p n s _ true hg hnext]
        have hrel : ∀ a ∈ s.tAcc.getLast?, RRel dt0 p.minStep p.maxStep p.tEnd a (s.t + rkfDt1 p s) := by
          intro a ha
          rw [hlast] at ha
          simp only [Option.mem_def, Option.some.injEq] at ha
          subst ha
          refine ⟨tq, tq + d, htq, by rw [htq, hd1]; simp [Jv], by linarith, ?_⟩
          have hcd : tq + d - tq = d := by ring
          rcases hdisj with h | h | h
          · exact Or.inl (by rw [hcd]; exact h)
          · exact Or.inr (Or.inl (by rw [hcd]; exact h))
          · exact Or.inr (Or.inr h)
        refine ih (rkfAccState p s) ?_ ?_ ?_ ?_ ?_
        · exact ⟨tq + d, by simp [rkfAccState, htq, hd1, Jv]⟩
        · simp [rkfAccState]
        · exact chain'_concat_of_last hc hrel
        · exact rkfNextDt_inv p dt0 hms hmm _ _
        · intro hn
          show rkfNextDt p (rkfDt1 p s) (rkfErrOf p s) ≠ JNum.nan
          have herr : rkfErrOf p s = Jv 0 := by
            unfold rkfErrOf
            rw [hn]
            exact rkfError_zero _ _ _
          obtain ⟨d', hd'⟩ := rkfNextDt_err0 p d
          rw [hd1, herr, hd']
          simp [Jv]
      · rw [rkf45Loop_succ_next p n s _ false hg hnext]
        refine ih (rkfRejState p s) ⟨tq, htq⟩ hlast hc (rkfNextDt_inv p dt0 hms hmm _ _) ?_
        intro hn
        show rkfNextDt p (rkfDt1 p s) (rkfErrOf p s) ≠ JNum.nan
        have herr : rkfErrOf p s = Jv 0 := by
          unfold rkfErrOf
          rw [hn]
          exact rkfError_zero _ _ _
        have hdt1 : rkfDt1 p s ≠ JNum.nan := rkfDt1_ne_nan p s tq htq (hn0 hn)
        obtain ⟨d'', hd''⟩ : ∃ d'', rkfDt1 p s = Jv d'' := by
          cases h : rkfDt1 p s with
          | nan => exact absurd h hdt1
          | val q => exact ⟨q, rfl⟩
        obtain ⟨d', hd'⟩ := rkfNextDt_err0 p d''
        rw [hd'', herr, hd']
        simp [Jv]
    · rw [rkf45Loop_exit p n s hg]
      simpa [rkfFinish] using hc

/-! ## Claims about the expression compiler and the nullcline extractor -/

/-- A string on which one rewriting pass is the identity is a fixpoint
of the `convertPowers` loop for every iteration budget. -/
theorem convertLoop_fix :
    ∀ (fuel : Nat) (prev s : List Char), convertStep s = s →
      convertLoop fuel prev s = s := by
  intro fuel
  induction fuel with
  | zero =>
    intro prev s _
    rfl
  | succ n ih =>
    intro prev s hs
    by_cases hp : s = prev
    · simp only [convertLoop, if_pos hp]
    · simp only [convertLoop, if_neg hp]
      rw [hs]
      exact ih s s (by rw [hs]) ▸ ih s s hs

/-- C6: the claim says the power-rewriting pass, iterated to a fixed
point, eliminates every `^` whose base is an identifier, numeral or
parenthesized expression and whose exponent is an identifier, signed
numeral or parenthesized expression.  The code has no case for
`numeral^numeral` (nor for parenthesized or signed exponents), so on
the in-scope input `2^3` every pass is the identity and the caret
survives to the generated body — where `^` is JS bitwise xor, contrary
to the function's own comment and the spec. -/
theorem claim6_convertPowers_misses_numeral_power :
    ∀ fuel : Nat,
      convertPowers fuel ("2^3").toList = ("2^3").toList ∧
      '^' ∈ convertPowers fuel ("2^3").toList := by
  intro fuel
  have h : convertPowers fuel ("2^3").toList = ("2^3").toList :=
    convertLoop_fix fuel [] _ (by decide)
  exact ⟨h, by rw [h]; decide⟩

/-- C7: compiling `sigma*(y - x)` over variables `[x, y, z]` and
evaluating the generated body at any time with state `[1, 2, 3]` and
parameters `{sigma: 10}` yields exactly 10. -/
theorem claim7_compile_then_evaluate :
    ∀ (fuel : Nat) (t : JNum),
      jsNumEval (parseEquationBody fuel ("sigma*(y - x)") ["x", "y", "z"])
        t [Jv 1, Jv 2, Jv 3] [("sigma", 10)] = some (Jv 10) := by
  intro fuel t
  have h1 : parseEquationBody fuel ("sigma*(y - x)") ["x", "y", "z"] =
      ("params.sigma*(y[1] - y[0])").toList := by
    simp only [parseEquationBody, convertPowers]
    rw [convertLoop_fix fuel [] _ (by with_unfolding_all decide)]
    with_unfolding_all decide
  rw [h1]
  with_unfolding_all rfl

/-- C8: the claim says `calculateNullclines` returns empty curves for
every system that is not two-variable.  The code only returns empty
curves when there are fewer than two compiled derivatives; a
three-derivative system is processed as if it were two-dimensional
(sampling the first two derivatives on two-component states) and
produces a nonempty curve. -/
theorem claim8_cex :
    (calculateNullclines
      [fun _ s => s.getD 0 JNum.nan, fun _ _ => Jv 1, fun _ _ => Jv 0]
      (-1, 1) (-1, 1) 1).1 ≠ [] ∧
    ([fun _ s => s.getD 0 JNum.nan, fun _ _ => Jv 1, fun _ _ => Jv 0] :
      List Deriv).length = 3 := by
  constructor
  · have hlen : (calculateNullclines
        [fun _ s => s.getD 0 JNum.nan, fun _ _ => Jv 1, fun _ _ => Jv 0]
        (-1, 1) (-1, 1) 1).1.length = 2 := by with_unfolding_all decide
    intro h
    rw [h] at hlen
    exact absurd hlen (by decide)
  · rfl

/-- C8 (amended): `calculateNullclines` returns a pair of empty curves
exactly for systems with fewer than two compiled derivatives; systems
with more than two variables are not rejected but treated as
two-dimensional using the first two derivatives. -/
theorem claim8_few_derivs_empty (derivs : List Deriv) (xr yr : ℚ × ℚ)
    (res : Nat) (h : derivs.length < 2) :
    calculateNullclines derivs xr yr res = ([], []) := by
  unfold calculateNullclines
  rw [if_pos h]

theorem claim8_witness :
    ([] : List Deriv).length < 2 ∧
    calculateNullclines ([] : List Deriv) (0, 1) (0, 1) 1 = ([], []) :=
  ⟨by decide, claim8_few_derivs_empty [] (0, 1) (0, 1) 1 (by decide)⟩

/-! ## Claims about the integration engine -/

/-- C10: for every call to any of the four integration methods, the
time array and the state array of the returned result have equal
length, namely the reported accepted-step count plus one.  (Exceptions
are not representable in the model; in the source every push site pairs
one time entry, one state entry and one step increment atomically, so
the catch-all handler also returns arrays satisfying this invariant.) -/
theorem claim10_lengths :
    (∀ (y0 : List JNum) (t0 : ℚ) (derivs : List Deriv) (cfg : SolverConfig),
      (euler y0 t0 derivs cfg).t.length = (euler y0 t0 derivs cfg).steps + 1 ∧
      (euler y0 t0 derivs cfg).y.length = (euler y0 t0 derivs cfg).steps + 1) ∧
    (∀ (y0 : List JNum) (t0 : ℚ) (derivs : List Deriv) (cfg : SolverConfig),
      (rk4 y0 t0 derivs cfg).t.length = (rk4 y0 t0 derivs cfg).steps + 1 ∧
      (rk4 y0 t0 derivs cfg).y.length = (rk4 y0 t0 derivs cfg).steps + 1) ∧
    (∀ (y0 : List JNum) (t0 : ℚ) (derivs : List Deriv) (cfg : ABConfig),
      (adamsBashforth y0 t0 derivs cfg).t.length = (adamsBashforth y0 t0 derivs cfg).steps + 1 ∧
      (adamsBashforth y0 t0 derivs cfg).y.length = (adamsBashforth y0 t0 derivs cfg).steps + 1) ∧
    (∀ (y0 : List JNum) (t0 : ℚ) (derivs : List Deriv) (pw : ℚ → ℚ)
      (cfg : RKF45Config) (fuel : Nat),
      (rkf45 y0 t0 derivs pw cfg fuel).t.length = (rkf45 y0 t0 derivs pw cfg fuel).steps + 1 ∧
      (rkf45 y0 t0 derivs pw cfg fuel).y.length = (rkf45 y0 t0 derivs pw cfg fuel).steps + 1) := by
  refine ⟨?_, ?_, ?_, ?_⟩
  · intro y0 t0 derivs cfg
    exact eulerLoop_len derivs cfg.dt cfg.tEnd cfg.maxSteps cfg.maxSteps t0 y0 [t0] [y0] 0
      (by simp) (by simp)
  · intro y0 t0 derivs cfg
    exact rk4Loop_len derivs cfg.dt cfg.tEnd cfg.maxSteps cfg.maxSteps t0 y0 [t0] [y0] 0
      (by simp) (by simp)
  · intro y0 t0 derivs cfg
    simp only [adamsBashforth]
    cases habs : abStartup derivs cfg.dt cfg.tEnd cfg.maxSteps
        ((if cfg.order = 0 then 4 else cfg.order) - 1)
        ⟨t0, y0, [t0], [y0], 0, [derivs.map fun f => f (Jv t0) y0]⟩ with
    | error r =>
      have h := abStartup_len derivs cfg.dt cfg.tEnd cfg.maxSteps
        ((if cfg.order = 0 then 4 else cfg.order) - 1)
        ⟨t0, y0, [t0], [y0], 0, [derivs.map fun f => f (Jv t0) y0]⟩ (by simp) (by simp)
      rw [habs] at h
      simpa [abResT, abResY, abResSteps] using h
    | ok s =>
      have h := abStartup_len derivs cfg.dt cfg.tEnd cfg.maxSteps
        ((if cfg.order = 0 then 4 else cfg.order) - 1)
        ⟨t0, y0, [t0], [y0], 0, [derivs.map fun f => f (Jv t0) y0]⟩ (by simp) (by simp)
      rw [habs] at h
      simp only [abResT, abResY, abResSteps] at h
      exact abMain_len derivs cfg.dt cfg.tEnd cfg.maxSteps
        (if cfg.order = 0 then 4 else cfg.order)
        (abCoeffs (if cfg.order = 0 then 4 else cfg.order)) cfg.maxSteps s h.1 h.2
  · intro y0 t0 derivs pw cfg fuel
    exact rkf45Loop_len
      ⟨derivs, y0.length, cfg.tEnd, cfg.tolerance, cfg.minStep, cfg.maxStep,
        cfg.safetyFactor, pw, cfg.maxSteps⟩ fuel
      ⟨Jv t0, y0, Jv (if cfg.dt = 0 then 1/100 else cfg.dt), [Jv t0], [y0], 0, 0⟩
      (by simp) (by simp)

/-- C9: every recorded (time, state) point is a value snapshot — each
loop of the four methods only ever appends to the accumulated arrays,
so the whole recorded prefix survives unchanged into the final result
(state vectors are pushed as copies in the source; in the value model
this is append-only extension of the accumulators). -/
theorem claim9_recorded_points_never_change :
    (∀ (derivs : List Deriv) (dt tEnd : ℚ) (maxSteps fuel : Nat) (t : ℚ)
      (y : List JNum) (tAcc : List ℚ) (yAcc : List (List JNum)) (steps : Nat),
      ∃ e1 e2,
        (eulerLoop derivs dt tEnd maxSteps fuel t y tAcc yAcc steps).t = tAcc ++ e1 ∧
        (eulerLoop derivs dt tEnd maxSteps fuel t y tAcc yAcc steps).y = yAcc ++ e2) ∧
    (∀ (derivs : List Deriv) (dt tEnd : ℚ) (maxSteps fuel : Nat) (t : ℚ)
      (y : List JNum) (tAcc : List ℚ) (yAcc : List (List JNum)) (steps : Nat),
      ∃ e1 e2,
        (rk4Loop derivs dt tEnd maxSteps fuel t y tAcc yAcc steps).t = tAcc ++ e1 ∧
        (rk4Loop derivs dt tEnd maxSteps fuel t y tAcc yAcc steps).y = yAcc ++ e2) ∧
    (∀ (derivs : List Deriv) (dt tEnd : ℚ) (maxSteps i : Nat) (s : ABState),
      ∃ e1 e2,
        abResT (abStartup derivs dt tEnd maxSteps i s) = s.tAcc ++ e1 ∧
        abResY (abStartup derivs dt tEnd maxSteps i s) = s.yAcc ++ e2) ∧
    (∀ (derivs : List Deriv) (dt tEnd : ℚ) (maxSteps order : Nat) (coeffs : List ℚ)
      (fuel : Nat) (s : ABState),
      ∃ e1 e2,
        (abMain derivs dt tEnd maxSteps order coeffs fuel s).t = s.tAcc ++ e1 ∧
        (abMain derivs dt tEnd maxSteps order coeffs fuel s).y = s.yAcc ++ e2) ∧
    (∀ (p : RParams) (fuel : Nat) (s : RState),
      ∃ e1 e2,
        (rkf45Loop p fuel s).t = s.tAcc ++ e1 ∧
        (rkf45Loop p fuel s).y = s.yAcc ++ e2) :=
  ⟨fun derivs dt tEnd maxSteps fuel => eulerLoop_ext derivs dt tEnd maxSteps fuel,
   fun derivs dt tEnd maxSteps fuel => rk4Loop_ext derivs dt tEnd maxSteps fuel,
   fun derivs dt tEnd maxSteps i => abStartup_ext derivs dt tEnd maxSteps i,
   fun derivs dt tEnd maxSteps order coeffs fuel =>
     abMain_ext derivs dt tEnd maxSteps order coeffs fuel,
   fun p fuel => rkf45Loop_ext p fuel⟩

/-- C4 (counterexample): an `adamsBashforth` run that hits the step cap
(`maxSteps = 2`) before its time (2) reaches `tEnd` (10) returns
`success = true`, but its message is the generic completion message,
not the cap message — the claim's "message indicates that the step cap
was hit" fails for this method. -/
theorem claim4_cex :
    (adamsBashforth [Jv 1] 0 [fun _ _ => Jv 0] ⟨1, 10, 2, 2⟩).success = true ∧
    (adamsBashforth [Jv 1] 0 [fun _ _ => Jv 0] ⟨1, 10, 2, 2⟩).steps = 2 ∧
    (⟨1, 10, 2, 2⟩ : ABConfig).maxSteps = 2 ∧
    (adamsBashforth [Jv 1] 0 [fun _ _ => Jv 0] ⟨1, 10, 2, 2⟩).t.getLast? = some 2 ∧
    (2 : ℚ) < 10 ∧
    (adamsBashforth [Jv 1] 0 [fun _ _ => Jv 0] ⟨1, 10, 2, 2⟩).message ≠ msgMaxSteps := by
  with_unfolding_all decide

/-- C4 (amended): a run that reaches the step cap before `tEnd` still
reports success in all four methods, but only `euler` and `rk4` flag
the cap in the message; `rkf45` and `adamsBashforth` return their
generic completion messages (step counts, no cap flag). -/
theorem claim4_cap_message :
    (∀ (y0 : List JNum) (t0 : ℚ) (derivs : List Deriv) (cfg : SolverConfig),
      (euler y0 t0 derivs cfg).success = true →
      cfg.maxSteps ≤ (euler y0 t0 derivs cfg).steps →
      (euler y0 t0 derivs cfg).message = msgMaxSteps) ∧
    (∀ (y0 : List JNum) (t0 : ℚ) (derivs : List Deriv) (cfg : SolverConfig),
      (rk4 y0 t0 derivs cfg).success = true →
      cfg.maxSteps ≤ (rk4 y0 t0 derivs cfg).steps →
      (rk4 y0 t0 derivs cfg).message = msgMaxSteps) ∧
    (∀ (y0 : List JNum) (t0 : ℚ) (derivs : List Deriv) (cfg : ABConfig),
      (adamsBashforth y0 t0 derivs cfg).success = true →
      (adamsBashforth y0 t0 derivs cfg).message =
        abDoneMsg (if cfg.order = 0 then 4 else cfg.order)
          (adamsBashforth y0 t0 derivs cfg).steps) ∧
    (∀ (y0 : List JNum) (t0 : ℚ) (derivs : List Deriv) (pw : ℚ → ℚ)
      (cfg : RKF45Config) (fuel : Nat),
      (rkf45 y0 t0 derivs pw cfg fuel).success = true →
      ∃ rej, (rkf45 y0 t0 derivs pw cfg fuel).message =
        rkfDoneMsg (rkf45 y0 t0 derivs pw cfg fuel).steps rej) := by
  refine ⟨?_, ?_, ?_, ?_⟩
  · intro y0 t0 derivs cfg hs
    exact (eulerLoop_msg derivs cfg.dt cfg.tEnd cfg.maxSteps cfg.maxSteps t0 y0 [t0] [y0] 0 hs).1
  · intro y0 t0 derivs cfg hs
    exact (rk4Loop_msg derivs cfg.dt cfg.tEnd cfg.maxSteps cfg.maxSteps t0 y0 [t0] [y0] 0 hs).1
  · intro y0 t0 derivs cfg
    simp only [adamsBashforth]
    cases habs : abStartup derivs cfg.dt cfg.tEnd cfg.maxSteps
        ((if cfg.order = 0 then 4 else cfg.order) - 1)
        ⟨t0, y0, [t0], [y0], 0, [derivs.map fun f => f (Jv t0) y0]⟩ with
    | error r =>
      have h := abStartup_fail derivs cfg.dt cfg.tEnd cfg.maxSteps
        ((if cfg.order = 0 then 4 else cfg.order) - 1)
        ⟨t0, y0, [t0], [y0], 0, [derivs.map fun f => f (Jv t0) y0]⟩
      rw [habs] at h
      simp only [ExMsg] at h
      intro hs
      rw [h] at hs
      exact absurd hs (by simp)
    | ok s =>
      exact abMain_msg derivs cfg.dt cfg.tEnd cfg.maxSteps
        (if cfg.order = 0 then 4 else cfg.order)
        (abCoeffs (if cfg.order = 0 then 4 else cfg.order)) cfg.maxSteps s
  · intro y0 t0 derivs pw cfg fuel
    exact rkf45Loop_msg
      ⟨derivs, y0.length, cfg.tEnd, cfg.tolerance, cfg.minStep, cfg.maxStep,
        cfg.safetyFactor, pw, cfg.maxSteps⟩ fuel
      ⟨Jv t0, y0, Jv (if cfg.dt = 0 then 1/100 else cfg.dt), [Jv t0], [y0], 0, 0⟩

theorem claim4_witness :
    (euler [Jv 0] 0 [fun _ _ => Jv 1] ⟨1, 100, 2⟩).message = msgMaxSteps ∧
    (adamsBashforth [Jv 1] 0 [fun _ _ => Jv 0] ⟨1, 10, 2, 2⟩).message =
      abDoneMsg (if (⟨1, 10, 2, 2⟩ : ABConfig).order = 0 then 4
        else (⟨1, 10, 2, 2⟩ : ABConfig).order)
        (adamsBashforth [Jv 1] 0 [fun _ _ => Jv 0] ⟨1, 10, 2, 2⟩).steps :=
  ⟨claim4_cap_message.1 [Jv 0] 0 [fun _ _ => Jv 1] ⟨1, 100, 2⟩
      (by with_unfolding_all decide) (by with_unfolding_all decide),
   claim4_cap_message.2.2.1 [Jv 1] 0 [fun _ _ => Jv 0] ⟨1, 10, 2, 2⟩
      (by with_unfolding_all decide)⟩

/-- C1 (counterexample): an `adamsBashforth` run whose first computed
state is non-finite does report failure with a diagnostic message, but
the divergent point itself *is* recorded: the final trajectory entry is
`[NaN]`, so the trajectory does not consist of finite points only as
the claim states. -/
theorem claim1_cex :
    (adamsBashforth [Jv 1] 0 [fun _ _ => JNum.nan] ⟨1, 10, 5, 2⟩).success = false ∧
    (adamsBashforth [Jv 1] 0 [fun _ _ => JNum.nan] ⟨1, 10, 5, 2⟩).message = msgDivergeStartup ∧
    (adamsBashforth [Jv 1] 0 [fun _ _ => JNum.nan] ⟨1, 10, 5, 2⟩).y.getLast? =
      some [JNum.nan] ∧
    ¬ (∀ v ∈ (adamsBashforth [Jv 1] 0 [fun _ _ => JNum.nan] ⟨1, 10, 5, 2⟩).y,
        allFinite v = true) := by
  with_unfolding_all decide

/-- C1 (amended): on a non-finite computed state every method reports
failure immediately with a diagnostic message, and retains every
previously accepted point; but only `euler` and `rk4` exclude the
divergent point (their recorded states are all finite when the initial
state is).  `rkf45` and `adamsBashforth` record the divergent point
before checking it, so their failed trajectory ends in a state with a
non-finite component while all earlier entries are finite. -/
theorem claim1_divergence_recording :
    (∀ (y0 : List JNum) (t0 : ℚ) (derivs : List Deriv) (cfg : SolverConfig),
      allFinite y0 = true →
      (∀ v ∈ (euler y0 t0 derivs cfg).y, allFinite v = true) ∧
      ((euler y0 t0 derivs cfg).success = false →
        (euler y0 t0 derivs cfg).message = msgDiverge)) ∧
    (∀ (y0 : List JNum) (t0 : ℚ) (derivs : List Deriv) (cfg : SolverConfig),
      allFinite y0 = true →
      (∀ v ∈ (rk4 y0 t0 derivs cfg).y, allFinite v = true) ∧
      ((rk4 y0 t0 derivs cfg).success = false →
        (rk4 y0 t0 derivs cfg).message = msgDiverge)) ∧
    (∀ (y0 : List JNum) (t0 : ℚ) (derivs : List Deriv) (cfg : ABConfig),
      allFinite y0 = true →
      (adamsBashforth y0 t0 derivs cfg).success = false →
      ((adamsBashforth y0 t0 derivs cfg).message = msgDiverge ∨
        (adamsBashforth y0 t0 derivs cfg).message = msgDivergeStartup) ∧
      (∀ v ∈ (adamsBashforth y0 t0 derivs cfg).y.dropLast, allFinite v = true) ∧
      (∃ w, (adamsBashforth y0 t0 derivs cfg).y.getLast? = some w ∧
        (w.any fun v => ! jIsFinite v) = true)) ∧
    (∀ (y0 : List JNum) (t0 : ℚ) (derivs : List Deriv) (pw : ℚ → ℚ)
      (cfg : RKF45Config) (fuel : Nat),
      allFinite y0 = true →
      (rkf45 y0 t0 derivs pw cfg fuel).success = false →
      (rkf45 y0 t0 derivs pw cfg fuel).message = msgDiverge ∧
      (∀ v ∈ (rkf45 y0 t0 derivs pw cfg fuel).y.dropLast, allFinite v = true) ∧
      (∃ w, (rkf45 y0 t0 derivs pw cfg fuel).y.getLast? = some w ∧
        (w.any fun v => ! jIsFinite v) = true)) := by
  refine ⟨?_, ?_, ?_, ?_⟩
  · intro y0 t0 derivs cfg hy0
    exact eulerLoop_fin derivs cfg.dt cfg.tEnd cfg.maxSteps cfg.maxSteps t0 y0 [t0] [y0] 0
      (by intro v hv; rw [List.mem_singleton] at hv; subst hv; exact hy0)
  · intro y0 t0 derivs cfg hy0
    exact rk4Loop_fin derivs cfg.dt cfg.tEnd cfg.maxSteps cfg.maxSteps t0 y0 [t0] [y0] 0
      (by intro v hv; rw [List.mem_singleton] at hv; subst hv; exact hy0)
  · intro y0 t0 derivs cfg hy0
    simp only [adamsBashforth]
    cases habs : abStartup derivs cfg.dt cfg.tEnd cfg.maxSteps
        ((if cfg.order = 0 then 4 else cfg.order) - 1)
        ⟨t0, y0, [t0], [y0], 0, [derivs.map fun f => f (Jv t0) y0]⟩ with
    | error r =>
      have h := abStartup_fin derivs cfg.dt cfg.tEnd cfg.maxSteps
        ((if cfg.order = 0 then 4 else cfg.order) - 1)
        ⟨t0, y0, [t0], [y0], 0, [derivs.map fun f => f (Jv t0) y0]⟩
        (by intro v hv; exact (List.mem_singleton.mp hv).symm ▸ hy0)
      rw [habs] at h
      simp only [ExFin] at h
      exact fun _ => ⟨h.2.1, h.2.2.1, h.2.2.2⟩
    | ok s =>
      have h := abStartup_fin derivs cfg.dt cfg.tEnd cfg.maxSteps
        ((if cfg.order = 0 then 4 else cfg.order) - 1)
        ⟨t0, y0, [t0], [y0], 0, [derivs.map fun f => f (Jv t0) y0]⟩
        (by intro v hv; exact (List.mem_singleton.mp hv).symm ▸ hy0)
      rw [habs] at h
      simp only [ExFin] at h
      intro hs
      have hm := (abMain_fin derivs cfg.dt cfg.tEnd cfg.maxSteps
        (if cfg.order = 0 then 4 else cfg.order)
        (abCoeffs (if cfg.order = 0 then 4 else cfg.order)) cfg.maxSteps s h).1 hs
      exact ⟨Or.inl hm.1, hm.2.1, hm.2.2⟩
  · intro y0 t0 derivs pw cfg fuel hy0
    exact (rkf45Loop_fin
      ⟨derivs, y0.length, cfg.tEnd, cfg.tolerance, cfg.minStep, cfg.maxStep,
        cfg.safetyFactor, pw, cfg.maxSteps⟩ fuel
      ⟨Jv t0, y0, Jv (if cfg.dt = 0 then 1/100 else cfg.dt), [Jv t0], [y0], 0, 0⟩
      (by intro v hv; exact (List.mem_singleton.mp hv).symm ▸ hy0)).1

theorem claim1_witness :
    (∀ v ∈ (euler [Jv 0] 0 [fun _ _ => Jv 1] ⟨1, 3, 10⟩).y, allFinite v = true) ∧
    ((adamsBashforth [Jv 1] 0 [fun _ _ => JNum.nan] ⟨1, 10, 5, 2⟩).message = msgDiverge ∨
      (adamsBashforth [Jv 1] 0 [fun _ _ => JNum.nan] ⟨1, 10, 5, 2⟩).message =
        msgDivergeStartup) :=
  ⟨(claim1_divergence_recording.1 [Jv 0] 0 [fun _ _ => Jv 1] ⟨1, 3, 10⟩ (by decide)).1,
   (claim1_divergence_recording.2.2.1 [Jv 1] 0 [fun _ _ => JNum.nan] ⟨1, 10, 5, 2⟩
      (by decide) (by with_unfolding_all decide)).1⟩

/-- C5: with a positive step size, every method's returned time array
starts at the supplied initial time and is strictly increasing (for the
adaptive method the admissibility conditions of its step-size fields,
satisfied by their defaults, are also assumed: positive minimum step
not exceeding the maximum step). -/
theorem claim5_time_strictly_increasing :
    (∀ (y0 : List JNum) (t0 : ℚ) (derivs : List Deriv) (cfg : SolverConfig),
      0 < cfg.dt →
      (euler y0 t0 derivs cfg).t.head? = some t0 ∧
      List.Chain' (· < ·) (euler y0 t0 derivs cfg).t) ∧
    (∀ (y0 : List JNum) (t0 : ℚ) (derivs : List Deriv) (cfg : SolverConfig),
      0 < cfg.dt →
      (rk4 y0 t0 derivs cfg).t.head? = some t0 ∧
      List.Chain' (· < ·) (rk4 y0 t0 derivs cfg).t) ∧
    (∀ (y0 : List JNum) (t0 : ℚ) (derivs : List Deriv) (cfg : ABConfig),
      0 < cfg.dt →
      (adamsBashforth y0 t0 derivs cfg).t.head? = some t0 ∧
      List.Chain' (· < ·) (adamsBashforth y0 t0 derivs cfg).t) ∧
    (∀ (y0 : List JNum) (t0 : ℚ) (derivs : List Deriv) (pw : ℚ → ℚ)
      (cfg : RKF45Config) (fuel : Nat),
      0 < cfg.dt → 0 < cfg.minStep → cfg.minStep ≤ cfg.maxStep →
      (rkf45 y0 t0 derivs pw cfg fuel).t.head? = some (Jv t0) ∧
      List.Chain' (fun a b => jlt a b = true) (rkf45 y0 t0 derivs pw cfg fuel).t) := by
  refine ⟨?_, ?_, ?_, ?_⟩
  · intro y0 t0 derivs cfg hdt
    constructor
    · obtain ⟨e1, _, h1, _⟩ :=
        eulerLoop_ext derivs cfg.dt cfg.tEnd cfg.maxSteps cfg.maxSteps t0 y0 [t0] [y0] 0
      show (eulerLoop derivs cfg.dt cfg.tEnd cfg.maxSteps cfg.maxSteps t0 y0 [t0] [y0] 0).t.head? =
        some t0
      rw [h1]
      rfl
    · exact eulerLoop_chain derivs cfg.dt cfg.tEnd cfg.maxSteps hdt cfg.maxSteps t0 y0 [t0] [y0] 0
        (List.chain'_singleton t0) rfl
  · intro y0 t0 derivs cfg hdt
    constructor
    · obtain ⟨e1, _, h1, _⟩ :=
        rk4Loop_ext derivs cfg.dt cfg.tEnd cfg.maxSteps cfg.maxSteps t0 y0 [t0] [y0] 0
      show (rk4Loop derivs cfg.dt cfg.tEnd cfg.maxSteps cfg.maxSteps t0 y0 [t0] [y0] 0).t.head? =
        some t0
      rw [h1]
      rfl
    · exact rk4Loop_chain derivs cfg.dt cfg.tEnd cfg.maxSteps hdt cfg.maxSteps t0 y0 [t0] [y0] 0
        (List.chain'_singleton t0) rfl
  · intro y0 t0 derivs cfg hdt
    simp only [adamsBashforth]
    cases habs : abStartup derivs cfg.dt cfg.tEnd cfg.maxSteps
        ((if cfg.order = 0 then 4 else cfg.order) - 1)
        ⟨t0, y0, [t0], [y0], 0, [derivs.map fun f => f (Jv t0) y0]⟩ with
    | error r =>
      obtain ⟨e1, _, h1, _⟩ := abStartup_ext derivs cfg.dt cfg.tEnd cfg.maxSteps
        ((if cfg.order = 0 then 4 else cfg.order) - 1)
        ⟨t0, y0, [t0], [y0], 0, [derivs.map fun f => f (Jv t0) y0]⟩
      have hc := abStartup_chain derivs cfg.dt cfg.tEnd cfg.maxSteps hdt
        ((if cfg.order = 0 then 4 else cfg.order) - 1)
        ⟨t0, y0, [t0], [y0], 0, [derivs.map fun f => f (Jv t0) y0]⟩
        (List.chain'_singleton t0) rfl
      rw [habs] at h1 hc
      simp only [abResT] at h1
      simp only [ExChain] at hc
      refine ⟨?_, hc⟩
      show r.t.head? = some t0
      rw [h1]
      rfl
    | ok s =>
      obtain ⟨e1, _, h1, _⟩ := abStartup_ext derivs cfg.dt cfg.tEnd cfg.maxSteps
        ((if cfg.order = 0 then 4 else cfg.order) - 1)
        ⟨t0, y0, [t0], [y0], 0, [derivs.map fun f => f (Jv t0) y0]⟩
      have hc := abStartup_chain derivs cfg.dt cfg.tEnd cfg.maxSteps hdt
        ((if cfg.order = 0 then 4 else cfg.order) - 1)
        ⟨t0, y0, [t0], [y0], 0, [derivs.map fun f => f (Jv t0) y0]⟩
        (List.chain'_singleton t0) rfl
      rw [habs] at h1 hc
      simp only [abResT] at h1
      simp only [ExChain] at hc
      constructor
      · obtain ⟨e3, _, h3, _⟩ := abMain_ext derivs cfg.dt cfg.tEnd cfg.maxSteps
          (if cfg.order = 0 then 4 else cfg.order)
          (abCoeffs (if cfg.order = 0 then 4 else cfg.order)) cfg.maxSteps s
        show (abMain derivs cfg.dt cfg.tEnd cfg.maxSteps (if cfg.order = 0 then 4 else cfg.order)
          (abCoeffs (if cfg.order = 0 then 4 else cfg.order)) cfg.maxSteps s).t.head? = some t0
        rw [h3, h1]
        rfl
      · exact abMain_chain derivs cfg.dt cfg.tEnd cfg.maxSteps
          (if cfg.order = 0 then 4 else cfg.order)
          (abCoeffs (if cfg.order = 0 then 4 else cfg.order)) hdt cfg.maxSteps s hc.1 hc.2
  · intro y0 t0 derivs pw cfg fuel hdt hms hmm
    constructor
    · obtain ⟨e1, _, h1, _⟩ := rkf45Loop_ext
        ⟨derivs, y0.length, cfg.tEnd, cfg.tolerance, cfg.minStep, cfg.maxStep,
          cfg.safetyFactor, pw, cfg.maxSteps⟩ fuel
        ⟨Jv t0, y0, Jv (if cfg.dt = 0 then 1/100 else cfg.dt), [Jv t0], [y0], 0, 0⟩
      show (rkf45Loop
        ⟨derivs, y0.length, cfg.tEnd, cfg.tolerance, cfg.minStep, cfg.maxStep,
          cfg.safetyFactor, pw, cfg.maxSteps⟩ fuel
        ⟨Jv t0, y0, Jv (if cfg.dt = 0 then 1/100 else cfg.dt), [Jv t0], [y0], 0, 0⟩).t.head? =
        some (Jv t0)
      rw [h1]
      rfl
    · refine List.Chain'.imp ?_
        (rkf45Loop_chain
          ⟨derivs, y0.length, cfg.tEnd, cfg.tolerance, cfg.minStep, cfg.maxStep,
            cfg.safetyFactor, pw, cfg.maxSteps⟩
          (if cfg.dt = 0 then 1/100 else cfg.dt) hms hmm fuel
          ⟨Jv t0, y0, Jv (if cfg.dt = 0 then 1/100 else cfg.dt), [Jv t0], [y0], 0, 0⟩
          ⟨t0, rfl⟩ rfl (List.chain'_singleton (Jv t0))
          (Or.inr ⟨if cfg.dt = 0 then 1/100 else cfg.dt, rfl,
            by rw [if_neg (ne_of_gt hdt)]; exact hdt, Or.inl rfl⟩)
          (fun _ => by simp [Jv]))
      intro a b hab
      obtain ⟨qa, qb, ha, hb, hlt, _⟩ := hab
      subst ha
      subst hb
      simp only [Jv, jlt_val_val]
      exact decide_eq_true hlt

theorem claim5_witness :
    ((euler [Jv 0] 0 [fun _ _ => Jv 1] ⟨1, 3, 10⟩).t.head? = some 0 ∧
      List.Chain' (· < ·) (euler [Jv 0] 0 [fun _ _ => Jv 1] ⟨1, 3, 10⟩).t) ∧
    ((rk4 [Jv 0] 0 [fun _ _ => Jv 1] ⟨1, 3, 10⟩).t.head? = some 0 ∧
      List.Chain' (· < ·) (rk4 [Jv 0] 0 [fun _ _ => Jv 1] ⟨1, 3, 10⟩).t) ∧
    ((adamsBashforth [Jv 1] 0 [fun _ _ => Jv 0] ⟨1, 10, 2, 2⟩).t.head? = some 0 ∧
      List.Chain' (· < ·) (adamsBashforth [Jv 1] 0 [fun _ _ => Jv 0] ⟨1, 10, 2, 2⟩).t) ∧
    ((rkf45 [Jv 1] 0 [fun _ _ => Jv 0] (fun _ => 1)
        ⟨1/2, 10, 3, 1/1000000, 1/100, 1, 9/10⟩ 3).t.head? = some (Jv 0) ∧
      List.Chain' (fun a b => jlt a b = true)
        (rkf45 [Jv 1] 0 [fun _ _ => Jv 0] (fun _ => 1)
          ⟨1/2, 10, 3, 1/1000000, 1/100, 1, 9/10⟩ 3).t) :=
  ⟨claim5_time_strictly_increasing.1 [Jv 0] 0 [fun _ _ => Jv 1] ⟨1, 3, 10⟩ (by norm_num),
   claim5_time_strictly_increasing.2.1 [Jv 0] 0 [fun _ _ => Jv 1] ⟨1, 3, 10⟩ (by norm_num),
   claim5_time_strictly_increasing.2.2.1 [Jv 1] 0 [fun _ _ => Jv 0] ⟨1, 10, 2, 2⟩ (by norm_num),
   claim5_time_strictly_increasing.2.2.2 [Jv 1] 0 [fun _ _ => Jv 0] (fun _ => 1)
     ⟨1/2, 10, 3, 1/1000000, 1/100, 1, 9/10⟩ 3 (by norm_num) (by norm_num) (by norm_num)⟩

/-- C3 (counterexample): with `dt = 5 > 0`, `minStep = 1/100 > 0` and
`maxStep = 1` (so `minStep ≤ maxStep`), the very first accepted step of
`rkf45` advances time from 0 to 5 — a step of size 5 outside
`[minStep, maxStep]`, because the configured initial step is used
without clamping. -/
theorem claim3_cex :
    (0 : ℚ) < 5 ∧ (0 : ℚ) < 1/100 ∧ (1/100 : ℚ) ≤ 1 ∧
    (rkf45 [Jv 1] 0 [fun _ _ => Jv 0] (fun _ => 1)
      ⟨5, 100, 1, 1/1000000, 1/100, 1, 9/10⟩ 3).t = [Jv 0, Jv 5] ∧
    ¬ ((5 : ℚ) - 0 ≤ 1) := by
  refine ⟨by norm_num, by norm_num, by norm_num, ?_, by norm_num⟩
  with_unfolding_all decide

/-- C3 (amended): under `0 < dt`, `0 < minStep ≤ maxStep`, every pair
of consecutive recorded times of an `rkf45` run is strictly increasing
with a step that lies in `[minStep, maxStep]` *or* equals the raw
configured initial step (used unclamped on the first attempt) *or* is
clipped to land exactly on `tEnd`; and an accepted attempt whose
(clipped) step is not `≤ minStep` has error estimate `≤ tolerance`. -/
theorem claim3_step_bounds :
    (∀ (y0 : List JNum) (t0 : ℚ) (derivs : List Deriv) (pw : ℚ → ℚ)
      (cfg : RKF45Config) (fuel : Nat),
      0 < cfg.dt → 0 < cfg.minStep → cfg.minStep ≤ cfg.maxStep →
      List.Chain' (RRel cfg.dt cfg.minStep cfg.maxStep cfg.tEnd)
        (rkf45 y0 t0 derivs pw cfg fuel).t) ∧
    (∀ (p : RParams) (s s' : RState), rkf45Attempt p s = RStep.next s' true →
      rkfAccepts p s = true) ∧
    (∀ (p : RParams) (s : RState) (r : SimRes JNum),
      rkf45Attempt p s = RStep.diverged r → rkfAccepts p s = true) ∧
    (∀ (p : RParams) (s : RState), rkfAccepts p s = true →
      jle (rkfDt1 p s) (Jv p.minStep) = false →
      jle (rkfErrOf p s) (Jv p.tolerance) = true) := by
  refine ⟨?_, ?_, ?_, ?_⟩
  · intro y0 t0 derivs pw cfg fuel hdt hms hmm
    have hif : (if cfg.dt = 0 then (1 : ℚ)/100 else cfg.dt) = cfg.dt :=
      if_neg (ne_of_gt hdt)
    have h := rkf45Loop_chain
      ⟨derivs, y0.length, cfg.tEnd, cfg.tolerance, cfg.minStep, cfg.maxStep,
        cfg.safetyFactor, pw, cfg.maxSteps⟩
      (if cfg.dt = 0 then 1/100 else cfg.dt) hms hmm fuel
      ⟨Jv t0, y0, Jv (if cfg.dt = 0 then 1/100 else cfg.dt), [Jv t0], [y0], 0, 0⟩
      ⟨t0, rfl⟩ rfl (List.chain'_singleton (Jv t0))
      (Or.inr ⟨if cfg.dt = 0 then 1/100 else cfg.dt, rfl,
        by rw [hif]; exact hdt, Or.inl rfl⟩)
      (fun _ => by simp [Jv])
    rw [← hif]
    exact h
  · intro p s s' h
    rcases rkf45Attempt_dispatch p s with ⟨hacc, ⟨hdiv, _⟩ | ⟨hnext, _⟩⟩ | ⟨hacc, hnext⟩
    · rw [h] at hdiv
      simp at hdiv
    · exact hacc
    · rw [h] at hnext
      simp at hnext
  · intro p s r h
    rcases rkf45Attempt_dispatch p s with ⟨hacc, ⟨hdiv, _⟩ | ⟨hnext, _⟩⟩ | ⟨hacc, hnext⟩
    · exact hacc
    · rw [h] at hnext
      simp at hnext
    · rw [h] at hnext
      simp at hnext
  · intro p s hacc hmin
    unfold rkfAccepts at hacc
    rcases Bool.or_eq_true_iff.mp hacc with h | h
    · exact h
    · rw [h] at hmin
      exact absurd hmin (by simp)

/-- The error estimate exactly as the specification words it: "for each
state component, `|y5_i − y4_i| / max(|y_i|, |y5_i|, 1e-10)`, taking the
maximum over components as the scalar error". -/
def specRkfError (n : Nat) (y y4 y5 : List ℚ) : ℚ :=
  (((List.range n).map fun i =>
    |y5.getD i 0 - y4.getD i 0| /
      max |y.getD i 0| (max |y5.getD i 0| (1/10000000000))).foldr max 0)

/-- Parameters of a step attempt with zero derivative; the error is 0,
so the attempt is accepted. -/
def c2P : RParams :=
  ⟨[fun _ _ => Jv 0], 1, 10, 1, 1/100, 1, 9/10, (fun _ => 1), 5⟩

/-- Parameters whose error estimate at `c2S` is `1/56 > tolerance` but
whose `minStep = 1` is above the current step `1/2`. -/
def c2Pm : RParams :=
  ⟨[fun t _ => if jeq t (Jv (1/4)) then Jv 1 else Jv 0], 1, 10,
    1/1000000, 1, 1, 9/10, (fun _ => 1), 1⟩

/-- Like `c2Pm` but with `minStep = 10⁻⁶`, so the same attempt is
rejected. -/
def c2Pr : RParams :=
  ⟨[fun t _ => if jeq t (Jv (1/4)) then Jv 1 else Jv 0], 1, 10,
    1/1000000, 1/1000000, 1, 9/10, (fun _ => 1), 5⟩

/-- A loop state at `t = 0`, `y = [1]`, `dt = 1/2` with one recorded
point. -/
def c2S : RState := ⟨Jv 0, [Jv 1], Jv (1/2), [Jv 0], [[Jv 1]], 0, 0⟩

/-- The state after the accepted attempt of `c2P` from `c2S`. -/
def c2S1 : RState :=
  ⟨Jv (1/2), [Jv 1], Jv 1, [Jv 0, Jv (1/2)], [[Jv 1], [Jv 1]], 1, 0⟩

/-- The state after the rejected attempt of `c2Pr` from `c2S`. -/
def c2S2 : RState := ⟨Jv 0, [Jv 1], Jv (9/20), [Jv 0], [[Jv 1]], 0, 1⟩

theorem foldr_max_max (a b : ℚ) :
    ∀ l : List ℚ, l.foldr max (max a b) = max a (l.foldr max b)
  | [] => rfl
  | x :: l => by
    rw [List.foldr_cons, List.foldr_cons, foldr_max_max a b l, max_left_comm]

theorem foldl_max_eq_foldr : ∀ (l : List ℚ) (a : ℚ), l.foldl max a = l.foldr max a
  | [], _ => rfl
  | x :: l, a => by
    rw [List.foldl_cons, List.foldr_cons, foldl_max_eq_foldr l (max a x),
      max_comm a x, foldr_max_max]

theorem getD_map_Jv (y : List ℚ) (i : Nat) (h : i < y.length) :
    (y.map Jv).getD i JNum.nan = Jv (y.getD i 0) := by
  have h2 : i < (y.map Jv).length := by simpa using h
  rw [List.getD_eq_getElem _ _ h2, List.getD_eq_getElem _ _ h, List.getElem_map]

/-- On lists of ordinary (finite) numbers, the error fold of the source
computes exactly the componentwise maximum of the specification. -/
theorem rkfError_map (n : Nat) (y y4 y5 : List ℚ)
    (hy : n ≤ y.length) (hy4 : n ≤ y4.length) (hy5 : n ≤ y5.length) :
    rkfError n (y.map Jv) (y4.map Jv) (y5.map Jv) = Jv (specRkfError n y y4 y5) := by
  have key : ∀ m, m ≤ n → ∀ a : ℚ,
      (List.range m).foldl
        (fun error i =>
          jmax error
            (jabs ((y5.map Jv).getD i JNum.nan - (y4.map Jv).getD i JNum.nan) /
              jmax (jabs ((y.map Jv).getD i JNum.nan))
                (jmax (jabs ((y5.map Jv).getD i JNum.nan)) (Jv (1/10000000000)))))
        (Jv a) =
      Jv ((List.range m).foldl
        (fun error i =>
          max error
            (|y5.getD i 0 - y4.getD i 0| /
              max |y.getD i 0| (max |y5.getD i 0| (1/10000000000)))) a) := by
    intro m
    induction m with
    | zero => intro _ a; rfl
    | succ k ih =>
      intro hk a
      have hkn : k < n := hk
      have hky : k < y.length := lt_of_lt_of_le hkn hy
      have hky4 : k < y4.length := lt_of_lt_of_le hkn hy4
      have hky5 : k < y5.length := lt_of_lt_of_le hkn hy5
      have hne : max |y.getD k 0| (max |y5.getD k 0| ((1 : ℚ)/10000000000)) ≠ 0 :=
        ne_of_gt (lt_of_lt_of_le (by norm_num)
          ((le_max_right _ _).trans (le_max_right _ _)))
      rw [List.range_succ]
      simp only [List.foldl_append, List.foldl_cons, List.foldl_nil]
      rw [ih (Nat.le_of_lt hkn) a]
      rw [getD_map_Jv y k hky, getD_map_Jv y4 k hky4, getD_map_Jv y5 k hky5]
      simp only [Jv, val_sub, jabs_val, jmax_val_val]
      rw [val_div_of_ne _ _ hne, jmax_val_val]
  have hspec : specRkfError n y y4 y5 =
      (List.range n).foldl
        (fun error i =>
          max error
            (|y5.getD i 0 - y4.getD i 0| /
              max |y.getD i 0| (max |y5.getD i 0| (1/10000000000)))) 0 := by
    simp only [specRkfError]
    rw [← foldl_max_eq_foldr, List.foldl_map]
  rw [hspec]
  exact key n le_rfl 0

/-- C2 (counterexample to "accepted exactly when the error is ≤ tolerance
or the current step size already equals the configured minimum step"): an
attempt whose clipped step (1/2) lies strictly below `minStep = 1` is
accepted although its error estimate (1/56) exceeds the tolerance (10⁻⁶)
and the step does not equal `minStep` — the source test is
`dt <= minStep`, not `dt === minStep`. -/
theorem claim2_cex :
    rkfAccepts c2Pm c2S = true ∧
    jle (rkfErrOf c2Pm c2S) (Jv c2Pm.tolerance) = false ∧
    rkfDt1 c2Pm c2S ≠ Jv c2Pm.minStep := by
  refine ⟨?_, ?_, ?_⟩ <;> with_unfolding_all decide

/-- C2 (amended): the scalar error estimate of an attempt equals the
spec's componentwise formula (the maximum over components of
`|y5_i − y4_i| / max(|y_i|, |y5_i|, 1e-10)`); an attempt is accepted
exactly when the error is ≤ tolerance OR the clipped step is ≤ `minStep`
(not "= minStep"); an accepted attempt advances time by the clipped step,
replaces the state by the order-5 estimate and appends the new point to
the trajectory; a rejected attempt leaves time, state and the recorded
trajectory unchanged, only adjusting the step size and the rejection
count. -/
theorem claim2_error_and_acceptance :
    (∀ (n : Nat) (y y4 y5 : List ℚ),
      n ≤ y.length → n ≤ y4.length → n ≤ y5.length →
      rkfError n (y.map Jv) (y4.map Jv) (y5.map Jv) = Jv (specRkfError n y y4 y5)) ∧
    (∀ (p : RParams) (s s' : RState), rkf45Attempt p s = RStep.next s' true →
      (jle (rkfErrOf p s) (Jv p.tolerance) = true ∨
        jle (rkfDt1 p s) (Jv p.minStep) = true) ∧
      s'.t = s.t + rkfDt1 p s ∧ s'.y = rkfY5Of p s ∧
      s'.tAcc = s.tAcc ++ [s.t + rkfDt1 p s] ∧ s'.yAcc = s.yAcc ++ [rkfY5Of p s] ∧
      s'.steps = s.steps + 1 ∧ s'.rejected = s.rejected) ∧
    (∀ (p : RParams) (s s' : RState), rkf45Attempt p s = RStep.next s' false →
      jle (rkfErrOf p s) (Jv p.tolerance) = false ∧
      jle (rkfDt1 p s) (Jv p.minStep) = false ∧
      s'.t = s.t ∧ s'.y = s.y ∧ s'.tAcc = s.tAcc ∧ s'.yAcc = s.yAcc ∧
      s'.steps = s.steps ∧ s'.rejected = s.rejected + 1) := by
  refine ⟨fun n y y4 y5 hy hy4 hy5 => rkfError_map n y y4 y5 hy hy4 hy5, ?_, ?_⟩
  · intro p s s' h
    rcases rkf45Attempt_dispatch p s with ⟨hacc, ⟨hdiv, _⟩ | ⟨hnext, _⟩⟩ | ⟨hacc, hnext⟩
    · rw [h] at hdiv
      simp at hdiv
    · have hs : s' = rkfAccState p s := by
        have h12 := h.symm.trans hnext
        simpa using h12
      subst hs
      unfold rkfAccepts at hacc
      exact ⟨Bool.or_eq_true_iff.mp hacc, rfl, rfl, rfl, rfl, rfl, rfl⟩
    · have h12 := h.symm.trans hnext
      injection h12 with h1 h2
      exact Bool.noConfusion h2
  · intro p s s' h
    rcases rkf45Attempt_dispatch p s with ⟨hacc, ⟨hdiv, _⟩ | ⟨hnext, _⟩⟩ | ⟨hacc, hnext⟩
    · rw [h] at hdiv
      simp at hdiv
    · have h12 := h.symm.trans hnext
      injection h12 with h1 h2
      exact Bool.noConfusion h2
    · have hs : s' = rkfRejState p s := by
        have h12 := h.symm.trans hnext
        simpa using h12
      subst hs
      unfold rkfAccepts at hacc
      obtain ⟨he, hd⟩ := Bool.or_eq_false_iff.mp hacc
      exact ⟨he, hd, rfl, rfl, rfl, rfl, rfl, rfl⟩

theorem claim2_witness :
    ((2 : Nat) ≤ ([1, 2] : List ℚ).length ∧
      rkfError 2 (([1, 2] : List ℚ).map Jv) (([3, 5] : List ℚ).map Jv)
          (([4, 7] : List ℚ).map Jv) =
        Jv (specRkfError 2 [1, 2] [3, 5] [4, 7])) ∧
    (rkf45Attempt c2P c2S = RStep.next c2S1 true ∧
      c2S1.t = c2S.t + rkfDt1 c2P c2S ∧
      c2S1.yAcc = c2S.yAcc ++ [rkfY5Of c2P c2S] ∧
      c2S1.steps = c2S.steps + 1) ∧
    (rkf45Attempt c2Pr c2S = RStep.next c2S2 false ∧
      jle (rkfErrOf c2Pr c2S) (Jv c2Pr.tolerance) = false ∧
      c2S2.t = c2S.t ∧ c2S2.yAcc = c2S.yAcc ∧
      c2S2.rejected = c2S.rejected + 1) := by
  have hacc : rkf45Attempt c2P c2S = RStep.next c2S1 true := by
    with_unfolding_all rfl
  have hrej : rkf45Attempt c2Pr c2S = RStep.next c2S2 false := by
    with_unfolding_all rfl
  refine ⟨⟨by simp, claim2_error_and_acceptance.1 2 [1, 2] [3, 5] [4, 7]
      (by simp) (by simp) (by simp)⟩, ⟨hacc, ?_, ?_, ?_⟩, ⟨hrej, ?_, ?_, ?_, ?_⟩⟩
  · exact (claim2_error_and_acceptance.2.1 c2P c2S c2S1 hacc).2.1
  · exact (claim2_error_and_acceptance.2.1 c2P c2S c2S1 hacc).2.2.2.2.1
  · exact (claim2_error_and_acceptance.2.1 c2P c2S c2S1 hacc).2.2.2.2.2.1
  · exact (claim2_error_and_acceptance.2.2 c2Pr c2S c2S2 hrej).1
  · exact (claim2_error_and_acceptance.2.2 c2Pr c2S c2S2 hrej).2.2.1
  · exact (claim2_error_and_acceptance.2.2 c2Pr c2S c2S2 hrej).2.2.2.2.2.1
  · exact (claim2_error_and_acceptance.2.2 c2Pr c2S c2S2 hrej).2.2.2.2.2.2.2

theorem claim3_witness :
    (0 : ℚ) < 5 ∧ (0 : ℚ) < 1/100 ∧ (1/100 : ℚ) ≤ 1 ∧
    List.Chain' (RRel 5 (1/100) 1 100)
      (rkf45 [Jv 1] 0 [fun _ _ => Jv 0] (fun _ => 1)
        ⟨5, 100, 1, 1/1000000, 1/100, 1, 9/10⟩ 3).t :=
  ⟨by norm_num, by norm_num, by norm_num,
   claim3_step_bounds.1 [Jv 1] 0 [fun _ _ => Jv 0] (fun _ => 1)
     ⟨5, 100, 1, 1/1000000, 1/100, 1, 9/10⟩ 3 (by norm_num) (by norm_num) (by norm_num)⟩

end Integra
